import Mathlib

/-!
Verification of `src/formats/blast.py` (tabular BLAST -m8 parsing and the
HSP chaining / c-score / pair-statistics engines).

Conventions of the embedding:
* Python `float` values are embedded as `ℚ` (the program only ever performs
  exact-by-intent arithmetic on them), Python `int` as `ℤ`, strings as `String`.
* Fallible Python code (exceptions: `IndexError`, `ValueError`,
  `AssertionError`, `ZeroDivisionError`) is embedded with `Option`.
* In-place object mutation is embedded by explicit state passing: a function
  that mutates members of its argument list returns the post-call state of
  that list alongside its result.
* The source is Python 2: `/` on two `int`s is floor division, which is
  embedded as `Int.fdiv`.
-/

/-- Values of the 12 tab-separated columns of one BLAST -m8 line, after
numeric conversion (`float(args[2])`, `int(args[3])`, ... in
`BlastLine.__init__`, src/formats/blast.py lines 33-44). -/
structure Cols where
  query : String
  subject : String
  pctid : ℚ
  hitlen : ℤ
  nmismatch : ℤ
  ngaps : ℤ
  qstart : ℤ
  qstop : ℤ
  sstart : ℤ
  sstop : ℤ
  evalue : ℚ
  score : ℚ
deriving DecidableEq

/-- State of a `BlastLine` object (src/formats/blast.py lines 26-50): the 12
column fields plus the derived `orientation` flag.  The slots `qseqid`,
`sseqid`, `qi`, `si` are never assigned anywhere in the file and are omitted. -/
structure BlastLine where
  query : String
  subject : String
  pctid : ℚ
  hitlen : ℤ
  nmismatch : ℤ
  ngaps : ℤ
  qstart : ℤ
  qstop : ℤ
  sstart : ℤ
  sstop : ℤ
  evalue : ℚ
  score : ℚ
  orientation : Char
deriving DecidableEq

/-- Normalization step of `BlastLine.__init__` (src/formats/blast.py lines
46-50): if `sstart > sstop` the subject coordinates are swapped and the
orientation is `'-'`, otherwise they are kept and the orientation is `'+'`. -/
def BlastLine.init (c : Cols) : BlastLine :=
  if c.sstop < c.sstart then
    ⟨c.query, c.subject, c.pctid, c.hitlen, c.nmismatch, c.ngaps, c.qstart, c.qstop,
     c.sstop, c.sstart, c.evalue, c.score, '-'⟩
  else
    ⟨c.query, c.subject, c.pctid, c.hitlen, c.nmismatch, c.ngaps, c.qstart, c.qstop,
     c.sstart, c.sstop, c.evalue, c.score, '+'⟩

/-- Column values produced by `BlastLine.__str__` (src/formats/blast.py lines
56-60): the first 12 slots, with the subject coordinates swapped back when
`orientation == '-'`.  (`__str__` joins the textual forms of these values with
tabs; the textual formatting of numbers is not modelled, the column values
are.) -/
def BlastLine.strCols (b : BlastLine) : Cols :=
  if b.orientation = '-' then
    ⟨b.query, b.subject, b.pctid, b.hitlen, b.nmismatch, b.ngaps, b.qstart, b.qstop,
     b.sstop, b.sstart, b.evalue, b.score⟩
  else
    ⟨b.query, b.subject, b.pctid, b.hitlen, b.nmismatch, b.ngaps, b.qstart, b.qstop,
     b.sstart, b.sstop, b.evalue, b.score⟩

/-- Numeric value of a string of decimal digits. -/
def digitsToNat (cs : List Char) : ℕ :=
  cs.foldl (fun a c => a * 10 + (c.toNat - 48)) 0

/-- Python `int(s)` on the character list of a string: an optional sign
followed by one or more decimal digits; anything else raises `ValueError`
(embedded as `none`). -/
def pyParseIntChars (t : List Char) : Option ℤ :=
  let p : ℤ × List Char :=
    match t with
    | '-' :: rest => (-1, rest)
    | '+' :: rest => (1, rest)
    | _ => (1, t)
  if p.2 ≠ [] ∧ p.2.all (·.isDigit) then some (p.1 * (digitsToNat p.2 : ℤ)) else none

/-- Python `int(s)`: surrounding whitespace is stripped, then an optional sign
and decimal digits are read. -/
def pyParseInt (s : String) : Option ℤ :=
  pyParseIntChars s.trim.toList

/-- Python `float(s)` on decimal literals: optional sign, integer part and/or
fractional part (at least one digit overall), optional exponent.  Embedded
exactly as a rational number. -/
def pyParseFloat (s : String) : Option ℚ :=
  let t := s.trim.toList
  let p : ℚ × List Char :=
    match t with
    | '-' :: rest => (-1, rest)
    | '+' :: rest => (1, rest)
    | _ => (1, t)
  let mant := p.2.takeWhile (fun c => !(c == 'e') && !(c == 'E'))
  let expPart := p.2.dropWhile (fun c => !(c == 'e') && !(c == 'E'))
  let expVal : Option ℤ :=
    match expPart with
    | [] => some 0
    | _ :: er => pyParseIntChars er
  let ip := mant.takeWhile (·.isDigit)
  let fpart := mant.dropWhile (·.isDigit)
  let fp : Option (List Char) :=
    match fpart with
    | [] => some []
    | '.' :: r => if r.all (·.isDigit) then some r else none
    | _ => none
  match fp, expVal with
  | some f, some e =>
      if ip ≠ [] ∨ f ≠ [] then
        some (p.1 * ((digitsToNat ip : ℚ) + (digitsToNat f : ℚ) / (10 : ℚ) ^ f.length)
                * (10 : ℚ) ^ e)
      else none
  | _, _ => none

/-- `BlastLine(sline)` (src/formats/blast.py lines 31-50): split on tabs,
convert the 12 leading fields (an out-of-range access raises `IndexError`, a
failed conversion raises `ValueError`; both abort construction, embedded as
`none`), then normalize subject coordinates and set the orientation. -/
def BlastLine.ofArgs (args : List String) : Option BlastLine :=
  match args with
  | query :: subject :: a2 :: a3 :: a4 :: a5 :: a6 :: a7 :: a8 :: a9 :: a10 :: a11 :: _ =>
    match pyParseFloat a2, pyParseInt a3, pyParseInt a4, pyParseInt a5, pyParseInt a6,
          pyParseInt a7, pyParseInt a8, pyParseInt a9, pyParseFloat a10, pyParseFloat a11 with
    | some pctid, some hitlen, some nmismatch, some ngaps, some qstart, some qstop,
      some sstart, some sstop, some evalue, some score =>
        some (BlastLine.init
          ⟨query, subject, pctid, hitlen, nmismatch, ngaps, qstart, qstop, sstart, sstop,
           evalue, score⟩)
    | _, _, _, _, _, _, _, _, _, _ => none
  | _ => none

/-- Top level of `BlastLine.__init__`: `args = sline.split("\t")` followed by
the field conversions of `BlastLine.ofArgs`. -/
def BlastLine.parse (sline : String) : Option BlastLine :=
  BlastLine.ofArgs (sline.splitOn "\t")

/-- Body of the loop of `combine_HSPs` (src/formats/blast.py lines 487-498):
the three asserts (an `AssertionError` aborts, embedded as `none`) followed by
the in-place accumulation into the running aggregate `m`. -/
def combineStep (m b : BlastLine) : Option BlastLine :=
  if m.query = b.query ∧ m.subject = b.subject ∧ m.orientation = b.orientation then
    some { m with
      hitlen := m.hitlen + b.hitlen
      nmismatch := m.nmismatch + b.nmismatch
      ngaps := m.ngaps + b.ngaps
      qstart := min m.qstart b.qstart
      qstop := max m.qstop b.qstop
      sstart := min m.sstart b.sstart
      sstop := max m.sstop b.sstop
      score := m.score + b.score }
  else none

/-- Final `pctid` recomputation of `combine_HSPs` (src/formats/blast.py line
500): `m.pctid = 100 - (m.nmismatch + m.ngaps) * 100. / m.hitlen`, applied in
place to the running aggregate. -/
def combineFinal (mid : BlastLine) : BlastLine :=
  { mid with
    pctid := 100 - ((mid.nmismatch + mid.ngaps : ℤ) : ℚ) * 100 / (mid.hitlen : ℚ) }

/-- `combine_HSPs(a)` (src/formats/blast.py lines 479-501).  The Python
function mutates `a[0]` in place and returns it; the embedding returns the
pair (returned record, post-call state of the member list `a`).  `a[0]` on an
empty list raises `IndexError`; a cluster of size 1 is returned with no member
touched; otherwise the loop folds the tail into `m = a[0]` and finally
recomputes `pctid = 100 - (nmismatch + ngaps) * 100. / hitlen`
(`ZeroDivisionError` when the accumulated `hitlen` is zero, embedded as
`none`).  On an `AssertionError` mid-loop the partially mutated state is not
modelled, only the abort is. -/
def combine_HSPs : List BlastLine → Option (BlastLine × List BlastLine)
  | [] => none
  | m :: rest =>
    if rest = [] then some (m, [m])
    else
      (rest.foldlM combineStep m).bind fun mid =>
      if mid.hitlen = 0 then none
      else some (combineFinal mid, combineFinal mid :: rest)

/-- Pointwise update of a Python dict viewed as a total function with a
default. -/
def upd1 (m : String → ℚ) (k : String) (v : ℚ) : String → ℚ :=
  fun x => if x = k then v else m x

/-- One iteration of phase 1 of `cscore` (src/formats/blast.py lines 443-447):
`if b.score > best_score[b.query]: best_score[b.query] = b.score`, then the
same for `b.subject`.  `best_score` is a `defaultdict(float)`, so a missing
key reads as 0. -/
def bsStep (m : String → ℚ) (b : BlastLine) : String → ℚ :=
  let m1 := if m b.query < b.score then upd1 m b.query b.score else m
  if m1 b.subject < b.score then upd1 m1 b.subject b.score else m1

/-- Phase 1 of `cscore` (src/formats/blast.py lines 442-447): the best-score
map after registering every hit, starting from the `defaultdict(float)`
default of 0. -/
def best_score (hits : List BlastLine) : String → ℚ :=
  hits.foldl bsStep (fun _ => 0)

/-- Lookup in the `pairs` association list (`defaultdict(float)`, default 0). -/
def pairsGet (ps : List ((String × String) × ℚ)) (k : String × String) : ℚ :=
  ((ps.find? (fun e => e.1 = k)).map (fun e => e.2)).getD 0

/-- Store a value for a pair, replacing any previous entry. -/
def pairsSet (ps : List ((String × String) × ℚ)) (k : String × String) (v : ℚ) :
    List ((String × String) × ℚ) :=
  (k, v) :: ps.filter (fun e => ¬ e.1 = k)

/-- Lines 454-456 of src/formats/blast.py: `pair = (b.query, b.subject); if s >
pairs[pair]: pairs[pair] = s`.  Reading `pairs[pair]` from the
`defaultdict(float)` inserts the default 0.0 when the key is absent, which is
modelled by the first step. -/
def pairsStep (ps : List ((String × String) × ℚ)) (k : String × String) (s : ℚ) :
    List ((String × String) × ℚ) :=
  if (ps.find? (fun e => e.1 = k)).isSome then
    if pairsGet ps k < s then pairsSet ps k s else ps
  else
    if pairsGet ((k, 0) :: ps) k < s then pairsSet ((k, 0) :: ps) k s
    else (k, 0) :: ps

/-- One iteration of phase 2 of `cscore` (src/formats/blast.py lines 451-456):
`s = b.score / max(best_score[b.query], best_score[b.subject])` — a
`ZeroDivisionError` when the denominator is 0 aborts the run (embedded as
`none`) — followed by the cutoff test `s > opts.cutoff` and the `pairs`
update. -/
def cscoreStep (best : String → ℚ) (cutoff : ℚ)
    (ps : List ((String × String) × ℚ)) (b : BlastLine) :
    Option (List ((String × String) × ℚ)) :=
  if max (best b.query) (best b.subject) = 0 then none
  else if cutoff < b.score / max (best b.query) (best b.subject) then
    some (pairsStep ps (b.query, b.subject)
      (b.score / max (best b.query) (best b.subject)))
  else some ps

/-- Phase 2 of `cscore` over the whole hit list (the retained `pairs` map;
the final lexicographic print order of line 458 is not modelled, the set of
retained entries is). -/
def cscore_pairs (hits : List BlastLine) (cutoff : ℚ) :
    Option (List ((String × String) × ℚ)) :=
  hits.foldlM (cscoreStep (best_score hits) cutoff) []

/-- Python `int(x)` applied to a float: truncation toward zero. -/
def pyInt (q : ℚ) : ℤ :=
  if 0 ≤ q then ⌊q⌋ else ⌈q⌉

/-- `np.median` of an integer array: the middle element of the sorted data for
odd length, the mean of the two middle elements for even length (a float in
Python, embedded exactly as `ℚ`). -/
def npMedian (l : List ℤ) : ℚ :=
  if l.length % 2 = 1 then
    (((l.mergeSort (fun a b => decide (a ≤ b))).getD (l.length / 2) 0 : ℤ) : ℚ)
  else
    (((l.mergeSort (fun a b => decide (a ≤ b))).getD (l.length / 2 - 1) 0 +
      (l.mergeSort (fun a b => decide (a ≤ b))).getD (l.length / 2) 0 : ℤ) : ℚ) / 2

/-- Adaptive insert-size cutoff of `report_pairs` (src/formats/blast.py lines
856-860), reached when no fixed cutoff is supplied:
`p0 = np.median(dists); cutoff = int(2 * p0);
cutoff = int(math.ceil(cutoff / bins)) * bins`.  The source is Python 2, so
`cutoff / bins` on two `int`s is already floor division (`Int.fdiv`), and
`math.ceil` is applied to a whole number (the `Int.ceil` of the integer cast
below), making it the identity. -/
def adaptiveCutoff (dists : List ℤ) (bins : ℤ) : ℤ :=
  ⌈((Int.fdiv (pyInt (2 * npMedian dists)) bins : ℤ) : ℚ)⌉ * bins

/-- Linked-pair selection of `report_pairs` (src/formats/blast.py lines
864-868): distances above the cutoff are skipped, the rest are collected in
order as `linked_dist`. -/
def linkedDist (all_dist : List ℤ) (cutoff : ℤ) : List ℤ :=
  all_dist.filter (fun d => !(cutoff < d))

/-- Percentile report of `report_pairs` (src/formats/blast.py lines 876-884):
`linked_dist` is sorted ascending (`np.sort`), and the reported 2.5th/97.5th
percentiles are `linked_dist[int(num_links * .025)]` and
`linked_dist[int(num_links * .975)]` — plain indexing, no interpolation; an
out-of-range index raises `IndexError` (embedded as `none`). -/
def reportPercentiles (all_dist : List ℤ) (cutoff : ℤ) : Option (ℤ × ℤ) :=
  match ((linkedDist all_dist cutoff).mergeSort
          (fun a b => decide (a ≤ b)))[(pyInt
            (((linkedDist all_dist cutoff).length : ℚ) * (25/1000))).toNat]?,
        ((linkedDist all_dist cutoff).mergeSort
          (fun a b => decide (a ≤ b)))[(pyInt
            (((linkedDist all_dist cutoff).length : ℚ) * (975/1000))).toNat]? with
  | some p1, some p2 => some (p1, p2)
  | _, _ => none

/-- Modelled from the spec: DistanceMetric (§4.2).  The spec's
`jcvi.utils.range.range_distance` (edge-to-edge mode, as called by
`get_distance` with `distmode="ee"`) is not under src/; the spec describes the
signed gap between the nearest facing edges of two same-axis intervals
(negative gap = overlap), modelled as `max(starts) - min(stops)`. -/
def range_distance_ee (amin amax bmin bmax : ℤ) : ℤ :=
  max amin bmin - min amax bmax

/-- `get_distance(a, b, xaxis)` (src/formats/blast.py lines 462-476): the
distance between two HSPs on the query axis (`xaxis = true`, using
`qstart`/`qstop`) or the subject axis (using `sstart`/`sstop`), as the
absolute value of the signed edge gap. -/
def get_distance (a b : BlastLine) (xaxis : Bool) : ℤ :=
  if xaxis then |range_distance_ee a.qstart a.qstop b.qstart b.qstop|
  else |range_distance_ee a.sstart a.sstop b.sstart b.sstop|

/-- Handle for one record of the chained input: its position in the input list
paired with the record.  The Python `Grouper` keys the `BlastLine` objects by
identity; the index plays that role in the embedding. -/
abbrev ChainItem := ℕ × BlastLine

/-- Modelled from the spec: `jcvi.utils.grouper.Grouper` (§9, not under src/)
is a union-find / disjoint-set structure; the embedding keeps the current
partition as a list of clusters.  `grouperAdd` is `Grouper.join(a)` with a
single argument: insert `a` as a fresh singleton cluster when absent. -/
def grouperAdd (g : List (List ChainItem)) (a : ChainItem) : List (List ChainItem) :=
  if g.any (fun c => decide (a ∈ c)) then g else [a] :: g

/-- Merge every cluster containing `a` or `b` into a single cluster, keeping
the others. -/
def joinClusters (g : List (List ChainItem)) (a b : ChainItem) :
    List (List ChainItem) :=
  (g.filter (fun c => decide (a ∈ c) || decide (b ∈ c))).flatten ::
  g.filter (fun c => !(decide (a ∈ c) || decide (b ∈ c)))

/-- Modelled from the spec: `Grouper.join(a, b)` — insert both items, then
union the clusters containing them. -/
def grouperJoin (g : List (List ChainItem)) (a b : ChainItem) :
    List (List ChainItem) :=
  joinClusters (grouperAdd (grouperAdd g a) b) a b

/-- Join condition of the inner loop of `chain_HSPs` (src/formats/blast.py
lines 522-535): same orientation, query-axis distance at most `xdist`,
subject-axis distance at most `ydist`. -/
def hspClose (xdist ydist : ℤ) (a b : ChainItem) : Prop :=
  a.2.orientation = b.2.orientation ∧ get_distance a.2 b.2 true ≤ xdist ∧
  get_distance a.2 b.2 false ≤ ydist

instance (xdist ydist : ℤ) (a b : ChainItem) : Decidable (hspClose xdist ydist a b) := by
  unfold hspClose
  infer_instance

/-- Inner loop of `chain_HSPs` (lines 521-535): for `b` ranging over the
points after `a`, join `a` and `b` when they are close. -/
def innerLoop (xdist ydist : ℤ) (a : ChainItem) (g : List (List ChainItem)) :
    List ChainItem → List (List ChainItem)
  | [] => g
  | b :: pts =>
      innerLoop xdist ydist a
        (if hspClose xdist ydist a b then grouperJoin g a b else g) pts

/-- Outer loop of `chain_HSPs` (lines 518-535): each point is first joined as
a singleton (`clusters.join(a)`), then compared against all later points. -/
def processPoints (xdist ydist : ℤ) (g : List (List ChainItem)) :
    List ChainItem → List (List ChainItem)
  | [] => g
  | a :: rest =>
      processPoints xdist ydist (innerLoop xdist ydist a (grouperAdd g a) rest) rest

/-- Grouping key of `chain_HSPs` (line 509): `(x.query, x.subject)`. -/
def pairKey (b : BlastLine) : String × String :=
  (b.query, b.subject)

/-- Lexicographic comparison on the grouping key, as used by Python
`list.sort(key=lambda x: (x.query, x.subject))`. -/
def keyLe (k l : String × String) : Prop :=
  k.1 < l.1 ∨ (k.1 = l.1 ∧ k.2 ≤ l.2)

instance (k l : String × String) : Decidable (keyLe k l) := by
  unfold keyLe
  infer_instance

/-- Comparison function for the key sort of line 510. -/
def keyLeB (x y : ChainItem) : Bool :=
  decide (keyLe (pairKey x.2) (pairKey y.2))

/-- Lexicographic comparison on `(qstart, qstop, sstart, sstop)` used to sort
each partition's points (lines 514-515).  Only the membership of the sorted
list matters to the clustering result. -/
def coordLe (x y : ChainItem) : Bool :=
  decide (x.2.qstart < y.2.qstart) || (decide (x.2.qstart = y.2.qstart) &&
    (decide (x.2.qstop < y.2.qstop) || (decide (x.2.qstop = y.2.qstop) &&
      (decide (x.2.sstart < y.2.sstart) || (decide (x.2.sstart = y.2.sstart) &&
        decide (x.2.sstop ≤ y.2.sstop))))))

/-- `itertools.groupby` over the key-sorted list (line 513): maximal runs of
consecutive records with equal `(query, subject)` key. -/
def groupPairs : List ChainItem → List (List ChainItem)
  | [] => []
  | a :: rest =>
      (a :: rest.takeWhile (fun b => decide (pairKey b.2 = pairKey a.2))) ::
      groupPairs (rest.dropWhile (fun b => decide (pairKey b.2 = pairKey a.2)))
termination_by l => l.length
decreasing_by
  simp only [List.length_cons]
  exact Nat.lt_succ_of_le (List.Sublist.length_le (List.dropWhile_sublist _))

/-- Clustering phase of `chain_HSPs` (src/formats/blast.py lines 504-535):
sort the enumerated records by `(query, subject)`, group consecutive equal
keys, sort each group by coordinates, and run the pairwise joining loops over
one shared `Grouper`; the result is the final partition (`for c in clusters`). -/
def chainClusters (l : List BlastLine) (xdist ydist : ℤ) : List (List ChainItem) :=
  (groupPairs (l.enum.mergeSort keyLeB)).foldl
    (fun g grp => processPoints xdist ydist g (grp.mergeSort coordLe)) []

/-- `chain_HSPs(blastlines, xdist, ydist)` (src/formats/blast.py lines
504-542): merge each cluster with `combine_HSPs` and sort the merged records
by descending score. -/
def chain_HSPs_run (l : List BlastLine) (xdist ydist : ℤ) : Option (List BlastLine) :=
  ((chainClusters l xdist ydist).mapM
    (fun c => (combine_HSPs (c.map (fun x => x.2))).map (fun p => p.1))).map
    (fun hsps => hsps.mergeSort (fun x y => decide (y.score ≤ x.score)))

/-- Two items lie in a common cluster of the partition `g`. -/
def sameCluster (g : List (List ChainItem)) (x y : ChainItem) : Prop :=
  ∃ c ∈ g, x ∈ c ∧ y ∈ c

/-- Sample hit: first HSP of a two-member cluster. -/
def blA : BlastLine := ⟨"q01", "s01", 94, 60, 0, 0, 1, 60, 1, 60, 0, 30, '+'⟩

/-- Sample hit: second HSP of the same cluster. -/
def blB : BlastLine := ⟨"q01", "s01", 100, 40, 0, 0, 61, 100, 61, 100, 0, 20, '+'⟩

/-- Merged record produced by `combine_HSPs [blA, blB]`. -/
def blM : BlastLine := ⟨"q01", "s01", 100, 100, 0, 0, 1, 100, 1, 100, 0, 50, '+'⟩

/-- Sample hit with positive score. -/
def blC : BlastLine := ⟨"qA", "qB", 100, 50, 0, 0, 1, 50, 1, 50, 0, 8, '+'⟩

/-- Sample hit with zero score. -/
def blD : BlastLine := ⟨"qA", "qB", 100, 50, 0, 0, 1, 50, 1, 50, 0, 0, '+'⟩

def blE : BlastLine :=
  ⟨"qc", "sc", 90, 50, 0, 0, 1, 50, 1, 50, 0, 10, '+'⟩

def blF : BlastLine :=
  ⟨"qc", "sc", 90, 60, 0, 0, 60, 120, 60, 120, 0, 12, '+'⟩

theorem ofArgs_short (args : List String) (h : args.length < 12) :
    BlastLine.ofArgs args = none := by
  rcases args with _ | ⟨q, _ | ⟨s, _ | ⟨a2, _ | ⟨a3, _ | ⟨a4, _ | ⟨a5, _ | ⟨a6, _ | ⟨a7,
    _ | ⟨a8, _ | ⟨a9, _ | ⟨a10, _ | ⟨a11, rest⟩⟩⟩⟩⟩⟩⟩⟩⟩⟩⟩⟩
  · rfl
  · rfl
  · rfl
  · rfl
  · rfl
  · rfl
  · rfl
  · rfl
  · rfl
  · rfl
  · rfl
  · rfl
  · simp only [List.length_cons] at h
    omega

theorem ofArgs_full (q s a2 a3 a4 a5 a6 a7 a8 a9 a10 a11 : String) (rest : List String) :
    (BlastLine.ofArgs
        (q :: s :: a2 :: a3 :: a4 :: a5 :: a6 :: a7 :: a8 :: a9 :: a10 :: a11 :: rest)).isSome
      ↔ ((pyParseFloat a2).isSome ∧ (pyParseInt a3).isSome ∧ (pyParseInt a4).isSome ∧
         (pyParseInt a5).isSome ∧ (pyParseInt a6).isSome ∧ (pyParseInt a7).isSome ∧
         (pyParseInt a8).isSome ∧ (pyParseInt a9).isSome ∧ (pyParseFloat a10).isSome ∧
         (pyParseFloat a11).isSome) := by
  show (match pyParseFloat a2, pyParseInt a3, pyParseInt a4, pyParseInt a5, pyParseInt a6,
          pyParseInt a7, pyParseInt a8, pyParseInt a9, pyParseFloat a10, pyParseFloat a11 with
    | some pctid, some hitlen, some nmismatch, some ngaps, some qstart, some qstop,
      some sstart, some sstop, some evalue, some score =>
        some (BlastLine.init
          ⟨q, s, pctid, hitlen, nmismatch, ngaps, qstart, qstop, sstart, sstop,
           evalue, score⟩)
    | _, _, _, _, _, _, _, _, _, _ => (none : Option BlastLine)).isSome ↔ _
  split
  · simp_all
  · next hno =>
    simp only [Option.isSome_none, Option.isSome_iff_exists, Bool.false_eq_true, false_iff]
    rintro ⟨⟨p2, h2⟩, ⟨p3, h3⟩, ⟨p4, h4⟩, ⟨p5, h5⟩, ⟨p6, h6⟩, ⟨p7, h7⟩, ⟨p8, h8⟩,
      ⟨p9, h9⟩, ⟨p10, h10⟩, ⟨p11, h11⟩⟩
    exact hno p2 p3 p4 p5 p6 p7 p8 p9 p10 p11 h2 h3 h4 h5 h6 h7 h8 h9 h10 h11

theorem foldlM_combineStep_spec (rest : List BlastLine) (m mo : BlastLine)
    (h : rest.foldlM combineStep m = some mo) :
    mo.query = m.query ∧ mo.subject = m.subject ∧ mo.orientation = m.orientation ∧
    mo.evalue = m.evalue ∧ mo.pctid = m.pctid ∧
    mo.hitlen = m.hitlen + (rest.map (·.hitlen)).sum ∧
    mo.nmismatch = m.nmismatch + (rest.map (·.nmismatch)).sum ∧
    mo.ngaps = m.ngaps + (rest.map (·.ngaps)).sum ∧
    mo.score = m.score + (rest.map (·.score)).sum ∧
    ((mo.qstart = m.qstart ∨ mo.qstart ∈ rest.map (·.qstart)) ∧
      mo.qstart ≤ m.qstart ∧ ∀ b ∈ rest, mo.qstart ≤ b.qstart) ∧
    ((mo.qstop = m.qstop ∨ mo.qstop ∈ rest.map (·.qstop)) ∧
      m.qstop ≤ mo.qstop ∧ ∀ b ∈ rest, b.qstop ≤ mo.qstop) ∧
    ((mo.sstart = m.sstart ∨ mo.sstart ∈ rest.map (·.sstart)) ∧
      mo.sstart ≤ m.sstart ∧ ∀ b ∈ rest, mo.sstart ≤ b.sstart) ∧
    ((mo.sstop = m.sstop ∨ mo.sstop ∈ rest.map (·.sstop)) ∧
      m.sstop ≤ mo.sstop ∧ ∀ b ∈ rest, b.sstop ≤ mo.sstop) ∧
    (∀ b ∈ rest, b.query = m.query ∧ b.subject = m.subject ∧
      b.orientation = m.orientation) := by
  induction rest generalizing m with
  | nil =>
    simp [List.foldlM] at h
    subst h
    simp
  | cons b rest ih =>
    rw [List.foldlM_cons] at h
    cases hs : combineStep m b with
    | none =>
      rw [hs] at h
      replace h : (none : Option BlastLine) = some mo := h
      cases h
    | some m1 =>
      rw [hs] at h
      replace h : rest.foldlM combineStep m1 = some mo := h
      obtain ⟨hq, hsub, hor, hev, hpc, hhl, hnm, hng, hsc, hqa, hqo, hsa, hso, hpov⟩ := ih m1 h
      unfold combineStep at hs
      split_ifs at hs with hc
      obtain ⟨hcq, hcs, hco⟩ := hc
      injection hs with hm1
      subst hm1
      simp only at hq hsub hor hev hpc hhl hnm hng hsc hqa hqo hsa hso hpov
      refine ⟨hq, hsub, hor, hev, hpc, ?_, ?_, ?_, ?_, ?_, ?_, ?_, ?_, ?_⟩
      · rw [hhl]; simp; ring
      · rw [hnm]; simp; ring
      · rw [hng]; simp; ring
      · rw [hsc]; simp; ring
      · refine ⟨?_, ?_, ?_⟩
        · rcases hqa.1 with he | hm
          · rcases min_choice m.qstart b.qstart with h1 | h1
            · exact Or.inl (by rw [he, h1])
            · exact Or.inr (by simp; exact Or.inl (by rw [he, h1]))
          · exact Or.inr (by simp; right; simpa using hm)
        · exact le_trans hqa.2.1 (min_le_left _ _)
        · intro x hx
          rcases List.mem_cons.mp hx with rfl | hx
          · exact le_trans hqa.2.1 (min_le_right _ _)
          · exact hqa.2.2 x hx
      · refine ⟨?_, ?_, ?_⟩
        · rcases hqo.1 with he | hm
          · rcases max_choice m.qstop b.qstop with h1 | h1
            · exact Or.inl (by rw [he, h1])
            · exact Or.inr (by simp; exact Or.inl (by rw [he, h1]))
          · exact Or.inr (by simp; right; simpa using hm)
        · exact le_trans (le_max_left _ _) hqo.2.1
        · intro x hx
          rcases List.mem_cons.mp hx with rfl | hx
          · exact le_trans (le_max_right _ _) hqo.2.1
          · exact hqo.2.2 x hx
      · refine ⟨?_, ?_, ?_⟩
        · rcases hsa.1 with he | hm
          · rcases min_choice m.sstart b.sstart with h1 | h1
            · exact Or.inl (by rw [he, h1])
            · exact Or.inr (by simp; exact Or.inl (by rw [he, h1]))
          · exact Or.inr (by simp; right; simpa using hm)
        · exact le_trans hsa.2.1 (min_le_left _ _)
        · intro x hx
          rcases List.mem_cons.mp hx with rfl | hx
          · exact le_trans hsa.2.1 (min_le_right _ _)
          · exact hsa.2.2 x hx
      · refine ⟨?_, ?_, ?_⟩
        · rcases hso.1 with he | hm
          · rcases max_choice m.sstop b.sstop with h1 | h1
            · exact Or.inl (by rw [he, h1])
            · exact Or.inr (by simp; exact Or.inl (by rw [he, h1]))
          · exact Or.inr (by simp; right; simpa using hm)
        · exact le_trans (le_max_left _ _) hso.2.1
        · intro x hx
          rcases List.mem_cons.mp hx with rfl | hx
          · exact le_trans (le_max_right _ _) hso.2.1
          · exact hso.2.2 x hx
      · intro x hx
        rcases List.mem_cons.mp hx with rfl | hx
        · exact ⟨hcq.symm, hcs.symm, hco.symm⟩
        · exact hpov x hx

theorem foldlM_combineStep_isSome (rest : List BlastLine) (m : BlastLine)
    (hpov : ∀ b ∈ rest, b.query = m.query ∧ b.subject = m.subject ∧
      b.orientation = m.orientation) :
    (rest.foldlM combineStep m).isSome := by
  induction rest generalizing m with
  | nil => simp [List.foldlM]
  | cons b rest ih =>
    obtain ⟨hq, hs, ho⟩ := hpov b (by simp)
    cases hs2 : combineStep m b with
    | none =>
      unfold combineStep at hs2
      rw [if_pos ⟨hq.symm, hs.symm, ho.symm⟩] at hs2
      cases hs2
    | some m1 =>
      rw [List.foldlM_cons, hs2]
      show (rest.foldlM combineStep m1).isSome
      apply ih
      intro x hx
      have h1 := hpov x (List.mem_cons_of_mem _ hx)
      unfold combineStep at hs2
      rw [if_pos ⟨hq.symm, hs.symm, ho.symm⟩] at hs2
      injection hs2 with hm1
      subst hm1
      exact ⟨h1.1, h1.2.1, h1.2.2⟩

theorem combine_HSPs_isSome (a : List BlastLine) (hne : a ≠ [])
    (hpov : ∀ x ∈ a, ∀ y ∈ a, x.query = y.query ∧ x.subject = y.subject ∧
      x.orientation = y.orientation)
    (hhl : a.length = 1 ∨ (a.map (·.hitlen)).sum ≠ 0) :
    (combine_HSPs a).isSome := by
  match a with
  | [] => exact absurd rfl hne
  | m :: rest =>
    by_cases hr : rest = []
    · rw [combine_HSPs, if_pos hr]; rfl
    · rw [combine_HSPs, if_neg hr]
      have hsome := foldlM_combineStep_isSome rest m
        (fun b hb => hpov b (List.mem_cons_of_mem _ hb) m (List.mem_cons_self _ _))
      cases hmid : rest.foldlM combineStep m with
      | none => rw [hmid] at hsome; cases hsome
      | some mid =>
        have hspec := foldlM_combineStep_spec rest m mid hmid
        rw [Option.some_bind]
        have hml : mid.hitlen = ((m :: rest).map (·.hitlen)).sum := by
          rw [hspec.2.2.2.2.2.1]; simp
        have hz : ¬ mid.hitlen = 0 := by
          rcases hhl with h1 | h1
          · exact absurd (by simpa using h1) (by simpa using hr)
          · rw [hml]; exact h1
        rw [if_neg hz]
        rfl

theorem combine_HSPs_core (a : List BlastLine) (mo : BlastLine) (post : List BlastLine)
    (h : combine_HSPs a = some (mo, post)) :
    mo.hitlen = (a.map (·.hitlen)).sum ∧
    mo.nmismatch = (a.map (·.nmismatch)).sum ∧
    mo.ngaps = (a.map (·.ngaps)).sum ∧
    mo.score = (a.map (·.score)).sum ∧
    (mo.qstart ∈ a.map (·.qstart) ∧ ∀ b ∈ a, mo.qstart ≤ b.qstart) ∧
    (mo.qstop ∈ a.map (·.qstop) ∧ ∀ b ∈ a, b.qstop ≤ mo.qstop) ∧
    (mo.sstart ∈ a.map (·.sstart) ∧ ∀ b ∈ a, mo.sstart ≤ b.sstart) ∧
    (mo.sstop ∈ a.map (·.sstop) ∧ ∀ b ∈ a, b.sstop ≤ mo.sstop) ∧
    (2 ≤ a.length →
      mo.pctid = 100 - ((mo.nmismatch + mo.ngaps : ℤ) : ℚ) * 100 / (mo.hitlen : ℚ)) ∧
    (2 ≤ a.length → (a.map (·.hitlen)).sum ≠ 0) ∧
    (∀ x, a = [x] → mo = x ∧ post = [x]) ∧
    (∀ x ∈ a, ∀ y ∈ a, x.query = y.query ∧ x.subject = y.subject ∧
      x.orientation = y.orientation) ∧
    post = mo :: a.tail := by
  match a with
  | [] => rw [combine_HSPs] at h; cases h
  | m :: rest =>
    by_cases hr : rest = []
    · subst hr
      rw [combine_HSPs, if_pos rfl] at h
      injection h with h1
      injection h1 with hmo hpost
      subst hmo; subst hpost
      refine ⟨by simp, by simp, by simp, by simp, ?_, ?_, ?_, ?_,
        by intro h2; simp at h2, by intro h2; simp at h2, ?_, ?_, rfl⟩
      · exact ⟨by simp, by intro b hb; rcases List.mem_singleton.mp hb with rfl; rfl⟩
      · exact ⟨by simp, by intro b hb; rcases List.mem_singleton.mp hb with rfl; rfl⟩
      · exact ⟨by simp, by intro b hb; rcases List.mem_singleton.mp hb with rfl; rfl⟩
      · exact ⟨by simp, by intro b hb; rcases List.mem_singleton.mp hb with rfl; rfl⟩
      · rintro x hx
        injection hx with h1 h2
        exact ⟨h1, by rw [h1]⟩
      · intro x hx y hy
        rcases List.mem_singleton.mp hx with rfl
        rcases List.mem_singleton.mp hy with rfl
        exact ⟨rfl, rfl, rfl⟩
    · rw [combine_HSPs, if_neg hr] at h
      cases hmid : rest.foldlM combineStep m with
      | none =>
        rw [hmid] at h
        replace h : (none : Option (BlastLine × List BlastLine)) = some (mo, post) := h
        cases h
      | some mid =>
        rw [hmid, Option.some_bind] at h
        split_ifs at h with hz
        obtain ⟨hq, hsub, hor, hev, hpc, hhl, hnm, hng, hsc, hqa, hqo, hsa, hso, hpov⟩ :=
          foldlM_combineStep_spec rest m mid hmid
        injection h with h1
        injection h1 with hmo hpost
        subst hmo; subst hpost
        have povm : ∀ x ∈ m :: rest, x.query = m.query ∧ x.subject = m.subject ∧
            x.orientation = m.orientation := by
          intro x hx
          rcases List.mem_cons.mp hx with rfl | hx
          · exact ⟨rfl, rfl, rfl⟩
          · exact hpov x hx
        refine ⟨by simp [combineFinal, hhl], by simp [combineFinal, hnm],
          by simp [combineFinal, hng], by simp [combineFinal, hsc],
          ?_, ?_, ?_, ?_, fun _ => rfl, fun _ => by simpa [hhl] using hz, ?_, ?_, rfl⟩
        · constructor
          · show mid.qstart ∈ _
            rcases hqa.1 with he | hm1
            · simp [he]
            · simp only [List.map_cons, List.mem_cons]; exact Or.inr hm1
          · intro b hb
            show mid.qstart ≤ _
            rcases List.mem_cons.mp hb with rfl | hb
            · exact hqa.2.1
            · exact hqa.2.2 b hb
        · constructor
          · show mid.qstop ∈ _
            rcases hqo.1 with he | hm1
            · simp [he]
            · simp only [List.map_cons, List.mem_cons]; exact Or.inr hm1
          · intro b hb
            show _ ≤ mid.qstop
            rcases List.mem_cons.mp hb with rfl | hb
            · exact hqo.2.1
            · exact hqo.2.2 b hb
        · constructor
          · show mid.sstart ∈ _
            rcases hsa.1 with he | hm1
            · simp [he]
            · simp only [List.map_cons, List.mem_cons]; exact Or.inr hm1
          · intro b hb
            show mid.sstart ≤ _
            rcases List.mem_cons.mp hb with rfl | hb
            · exact hsa.2.1
            · exact hsa.2.2 b hb
        · constructor
          · show mid.sstop ∈ _
            rcases hso.1 with he | hm1
            · simp [he]
            · simp only [List.map_cons, List.mem_cons]; exact Or.inr hm1
          · intro b hb
            show _ ≤ mid.sstop
            rcases List.mem_cons.mp hb with rfl | hb
            · exact hso.2.1
            · exact hso.2.2 b hb
        · rintro x hx
          injection hx with h1 h2
          exact absurd h2 hr
        · intro x hx y hy
          obtain ⟨hx1, hx2, hx3⟩ := povm x hx
          obtain ⟨hy1, hy2, hy3⟩ := povm y hy
          exact ⟨hx1.trans hy1.symm, hx2.trans hy2.symm, hx3.trans hy3.symm⟩

/-- C4: `combine_HSPs` is additive — for every successfully merged cluster the
result's `hitlen`, `nmismatch`, `ngaps` and `score` are the sums of the
members' fields, `qstart`/`sstart` are the minima and `qstop`/`sstop` the
maxima over members, for clusters of size at least 2 the merged `pctid` equals
`100 - (nmismatch + ngaps) * 100 / hitlen`, a size-1 cluster is returned
unchanged, and all these aggregates are invariant under permuting the order in
which the members are folded. -/
theorem combine_HSPs_additivity (a : List BlastLine) (mo : BlastLine)
    (post : List BlastLine) (h : combine_HSPs a = some (mo, post)) :
    mo.hitlen = (a.map (·.hitlen)).sum ∧
    mo.nmismatch = (a.map (·.nmismatch)).sum ∧
    mo.ngaps = (a.map (·.ngaps)).sum ∧
    mo.score = (a.map (·.score)).sum ∧
    (mo.qstart ∈ a.map (·.qstart) ∧ ∀ b ∈ a, mo.qstart ≤ b.qstart) ∧
    (mo.qstop ∈ a.map (·.qstop) ∧ ∀ b ∈ a, b.qstop ≤ mo.qstop) ∧
    (mo.sstart ∈ a.map (·.sstart) ∧ ∀ b ∈ a, mo.sstart ≤ b.sstart) ∧
    (mo.sstop ∈ a.map (·.sstop) ∧ ∀ b ∈ a, b.sstop ≤ mo.sstop) ∧
    (2 ≤ a.length →
      mo.pctid = 100 - ((mo.nmismatch + mo.ngaps : ℤ) : ℚ) * 100 / (mo.hitlen : ℚ)) ∧
    (∀ x, a = [x] → mo = x ∧ post = [x]) ∧
    (∀ a2, a.Perm a2 → ∃ mo2 post2, combine_HSPs a2 = some (mo2, post2) ∧
      mo2.hitlen = mo.hitlen ∧ mo2.nmismatch = mo.nmismatch ∧ mo2.ngaps = mo.ngaps ∧
      mo2.score = mo.score ∧ mo2.qstart = mo.qstart ∧ mo2.qstop = mo.qstop ∧
      mo2.sstart = mo.sstart ∧ mo2.sstop = mo.sstop ∧ mo2.pctid = mo.pctid) := by
  obtain ⟨c1, c2, c3, c4, c5, c6, c7, c8, c9, c10, c11, c12, c13⟩ :=
    combine_HSPs_core a mo post h
  refine ⟨c1, c2, c3, c4, c5, c6, c7, c8, c9, c11, ?_⟩
  intro a2 hperm
  have hne : a ≠ [] := by
    intro he
    rw [he, combine_HSPs] at h
    cases h
  have hne2 : a2 ≠ [] := by
    intro he
    rw [he] at hperm
    exact hne hperm.eq_nil
  have hlen := hperm.length_eq
  have hsum : ∀ f : BlastLine → ℤ, (a2.map f).sum = (a.map f).sum :=
    fun f => ((hperm.map f).sum_eq).symm
  have hsumq : (a2.map (·.score)).sum = (a.map (·.score)).sum :=
    ((hperm.map (·.score)).sum_eq).symm
  have hmem : ∀ x : BlastLine, x ∈ a2 ↔ x ∈ a := fun x => (hperm.mem_iff).symm
  have hsome : (combine_HSPs a2).isSome := by
    apply combine_HSPs_isSome a2 hne2
    · intro x hx y hy
      exact c12 x ((hmem x).mp hx) y ((hmem y).mp hy)
    · by_cases h1 : a.length = 1
      · exact Or.inl (hlen ▸ h1)
      · right
        rw [hsum]
        apply c10
        cases a with
        | nil => exact absurd rfl hne
        | cons u v => simp only [List.length_cons] at h1 ⊢; omega
  obtain ⟨p, hp⟩ := Option.isSome_iff_exists.mp hsome
  obtain ⟨mo2, post2⟩ := p
  obtain ⟨d1, d2, d3, d4, d5, d6, d7, d8, d9, d10, d11, d12, d13⟩ :=
    combine_HSPs_core a2 mo2 post2 hp
  have e1 : mo2.hitlen = mo.hitlen := by rw [d1, hsum, c1]
  have e2 : mo2.nmismatch = mo.nmismatch := by rw [d2, hsum, c2]
  have e3 : mo2.ngaps = mo.ngaps := by rw [d3, hsum, c3]
  have e4 : mo2.score = mo.score := by rw [d4, hsumq, c4]
  have emin : ∀ (f : BlastLine → ℤ) (u v : ℤ),
      u ∈ a.map f → (∀ b ∈ a, u ≤ f b) → v ∈ a2.map f → (∀ b ∈ a2, v ≤ f b) →
      v = u := by
    intro f u v hu hlb hvm hlb2
    obtain ⟨bu, hbu, hbuf⟩ := List.mem_map.mp hu
    obtain ⟨bv, hbv, hbvf⟩ := List.mem_map.mp hvm
    have h1 : v ≤ u := hbuf ▸ hlb2 bu ((hmem bu).mpr hbu)
    have h2 : u ≤ v := hbvf ▸ hlb bv ((hmem bv).mp hbv)
    omega
  have emax : ∀ (f : BlastLine → ℤ) (u v : ℤ),
      u ∈ a.map f → (∀ b ∈ a, f b ≤ u) → v ∈ a2.map f → (∀ b ∈ a2, f b ≤ v) →
      v = u := by
    intro f u v hu hub hvm hub2
    obtain ⟨bu, hbu, hbuf⟩ := List.mem_map.mp hu
    obtain ⟨bv, hbv, hbvf⟩ := List.mem_map.mp hvm
    have h1 : u ≤ v := hbuf ▸ hub2 bu ((hmem bu).mpr hbu)
    have h2 : v ≤ u := hbvf ▸ hub bv ((hmem bv).mp hbv)
    omega
  have e5 : mo2.qstart = mo.qstart :=
    emin (·.qstart) mo.qstart mo2.qstart c5.1 c5.2 d5.1 d5.2
  have e6 : mo2.qstop = mo.qstop :=
    emax (·.qstop) mo.qstop mo2.qstop c6.1 c6.2 d6.1 d6.2
  have e7 : mo2.sstart = mo.sstart :=
    emin (·.sstart) mo.sstart mo2.sstart c7.1 c7.2 d7.1 d7.2
  have e8 : mo2.sstop = mo.sstop :=
    emax (·.sstop) mo.sstop mo2.sstop c8.1 c8.2 d8.1 d8.2
  have e9 : mo2.pctid = mo.pctid := by
    by_cases h1 : a.length = 1
    · obtain ⟨x, hx⟩ := List.length_eq_one.mp h1
      have hx2 : a2 = [x] := by
        rw [hx] at hperm
        exact (List.singleton_perm.mp hperm).symm
      have hm1 := (c11 x hx).1
      have hm2 := (d11 x hx2).1
      rw [hm1, hm2]
    · have h2 : 2 ≤ a.length := by
        cases a with
        | nil => exact absurd rfl hne
        | cons u v => simp only [List.length_cons] at h1 ⊢; omega
      rw [d9 (hlen ▸ h2), c9 h2, e1, e2, e3]
  exact ⟨mo2, post2, hp, e1, e2, e3, e4, e5, e6, e7, e8, e9⟩

theorem combine_pair_eval : combine_HSPs [blA, blB] = some (blM, [blM, blB]) := by
  simp only [combine_HSPs, combineStep, combineFinal, List.foldlM, blA, blB, blM]
  norm_num

/-- C2 counterexample: `combine_HSPs` does not leave the members of a
two-element cluster with their original field values — after the call the
first member carries the aggregated `hitlen` 100, while the record it was
constructed with had `hitlen` 60. -/
theorem combine_HSPs_mutation_cex :
    (combine_HSPs [blA, blB]).map (fun p => p.2.map (·.hitlen)) = some [100, 40] ∧
    blA.hitlen = 60 ∧ blB.hitlen = 40 := by
  refine ⟨?_, rfl, rfl⟩
  rw [combine_pair_eval]
  rfl

/-- C2 (amended): `combine_HSPs` mutates the first member of a cluster of size
at least 2 in place — the post-call member list is the returned merged record
followed by the untouched remaining members — and a size-1 cluster is returned
with no member modified. -/
theorem combine_HSPs_mutation (a : List BlastLine) (mo : BlastLine)
    (post : List BlastLine) (h : combine_HSPs a = some (mo, post)) :
    post = mo :: a.tail ∧ (∀ x, a = [x] → mo = x ∧ post = a) := by
  obtain ⟨-, -, -, -, -, -, -, -, -, -, c11, -, c13⟩ := combine_HSPs_core a mo post h
  refine ⟨c13, fun x hx => ⟨(c11 x hx).1, ?_⟩⟩
  rw [(c11 x hx).2, hx]

theorem combine_HSPs_mutation_witness :
    [blM, blB] = blM :: [blA, blB].tail :=
  (combine_HSPs_mutation [blA, blB] blM [blM, blB] combine_pair_eval).1

theorem combine_HSPs_additivity_witness :
    blM.hitlen = ([blA, blB].map (·.hitlen)).sum ∧ blM.score = ([blA, blB].map (·.score)).sum :=
  ⟨(combine_HSPs_additivity [blA, blB] blM [blM, blB] combine_pair_eval).1,
   (combine_HSPs_additivity [blA, blB] blM [blM, blB] combine_pair_eval).2.2.2.1⟩

/-- C3: round-trip — constructing a `BlastLine` from the 12 column values of a
well-formed line and serializing it with `__str__` reproduces the original
column values exactly, re-swapping the subject coordinates back into their
original descending order when the orientation is `'-'`. -/
theorem blastline_roundtrip (c : Cols) : (BlastLine.init c).strCols = c := by
  by_cases h : c.sstop < c.sstart <;>
    simp [BlastLine.init, BlastLine.strCols, h]

/-- C8: normalization invariant — every constructed `BlastLine` stores
`sstart ≤ sstop`; the orientation is `'-'` exactly when the column values had
subject-start greater than subject-stop and `'+'` otherwise; the query
coordinates (and the remaining fields) are stored exactly as given. -/
theorem blastline_normalization (c : Cols) :
    (BlastLine.init c).sstart ≤ (BlastLine.init c).sstop ∧
    ((BlastLine.init c).orientation = '-' ↔ c.sstop < c.sstart) ∧
    ((BlastLine.init c).orientation = '+' ↔ ¬ c.sstop < c.sstart) ∧
    (BlastLine.init c).qstart = c.qstart ∧ (BlastLine.init c).qstop = c.qstop ∧
    (BlastLine.init c).query = c.query ∧ (BlastLine.init c).subject = c.subject ∧
    (BlastLine.init c).pctid = c.pctid ∧ (BlastLine.init c).hitlen = c.hitlen ∧
    (BlastLine.init c).evalue = c.evalue ∧ (BlastLine.init c).score = c.score := by
  by_cases h : c.sstop < c.sstart <;>
    simp [BlastLine.init, h] <;> omega

/-- C9: parse contract — `BlastLine` construction fails (as a whole, never
partially) on every line whose tab-split has fewer than 12 fields, succeeds on
a 12-or-more-field split exactly when all ten numeric fields convert, and
`parse` is the composition of the tab split with the field conversions. -/
theorem blastline_parse_contract :
    (∀ args : List String, args.length < 12 → BlastLine.ofArgs args = none) ∧
    (∀ q s a2 a3 a4 a5 a6 a7 a8 a9 a10 a11 : String, ∀ rest : List String,
      (BlastLine.ofArgs
        (q :: s :: a2 :: a3 :: a4 :: a5 :: a6 :: a7 :: a8 :: a9 :: a10 :: a11 :: rest)).isSome
      ↔ ((pyParseFloat a2).isSome ∧ (pyParseInt a3).isSome ∧ (pyParseInt a4).isSome ∧
         (pyParseInt a5).isSome ∧ (pyParseInt a6).isSome ∧ (pyParseInt a7).isSome ∧
         (pyParseInt a8).isSome ∧ (pyParseInt a9).isSome ∧ (pyParseFloat a10).isSome ∧
         (pyParseFloat a11).isSome)) ∧
    (∀ sline : String, BlastLine.parse sline = BlastLine.ofArgs (sline.splitOn "\t")) :=
  ⟨ofArgs_short, ofArgs_full, fun _ => rfl⟩

theorem blastline_parse_contract_witness :
    BlastLine.ofArgs ["a", "b"] = none ∧
    BlastLine.parse "x" = BlastLine.ofArgs ("x".splitOn "\t") :=
  ⟨blastline_parse_contract.1 ["a", "b"] (by decide),
   blastline_parse_contract.2.2 "x"⟩

theorem upd1_ge (m : String → ℚ) (q : String) (s : ℚ) (hq : m q ≤ s) (x : String) :
    m x ≤ upd1 m q s x := by
  unfold upd1
  split_ifs with h
  · subst h; exact hq
  · exact le_refl _

theorem bsStep_mono (m : String → ℚ) (b : BlastLine) (x : String) :
    m x ≤ bsStep m b x := by
  unfold bsStep
  set m1 := if m b.query < b.score then upd1 m b.query b.score else m with hm1
  have h1 : m x ≤ m1 x := by
    rw [hm1]
    split_ifs with h
    · exact upd1_ge m b.query b.score (le_of_lt h) x
    · exact le_refl _
  refine le_trans h1 ?_
  split_ifs with h
  · exact upd1_ge m1 b.subject b.score (le_of_lt h) x
  · exact le_refl _

theorem foldl_bsStep_mono (l : List BlastLine) (m : String → ℚ) (x : String) :
    m x ≤ l.foldl bsStep m x := by
  induction l generalizing m with
  | nil => exact le_refl _
  | cons b l ih => exact le_trans (bsStep_mono m b x) (ih (bsStep m b))

theorem bsStep_query_ge (m : String → ℚ) (b : BlastLine) :
    b.score ≤ bsStep m b b.query := by
  unfold bsStep
  set m1 := if m b.query < b.score then upd1 m b.query b.score else m with hm1
  have h1 : b.score ≤ m1 b.query := by
    rw [hm1]
    split_ifs with h
    · unfold upd1; simp
    · exact le_of_not_lt h
  refine le_trans h1 ?_
  split_ifs with h
  · exact upd1_ge m1 b.subject b.score (le_of_lt h) b.query
  · exact le_refl _

theorem bsStep_subject_ge (m : String → ℚ) (b : BlastLine) :
    b.score ≤ bsStep m b b.subject := by
  unfold bsStep
  set m1 := if m b.query < b.score then upd1 m b.query b.score else m with hm1
  split_ifs with h
  · unfold upd1; simp
  · exact le_of_not_lt h

theorem best_score_ge (hits : List BlastLine) (b : BlastLine) (hb : b ∈ hits) :
    b.score ≤ best_score hits b.query ∧ b.score ≤ best_score hits b.subject := by
  unfold best_score
  suffices h : ∀ (l : List BlastLine) (m : String → ℚ), b ∈ l →
      b.score ≤ l.foldl bsStep m b.query ∧ b.score ≤ l.foldl bsStep m b.subject from
    h hits _ hb
  intro l
  induction l with
  | nil => intro m h; cases h
  | cons a l ih =>
    intro m hmem
    rcases List.mem_cons.mp hmem with rfl | hmem
    · constructor
      · exact le_trans (bsStep_query_ge m b) (foldl_bsStep_mono l _ _)
      · exact le_trans (bsStep_subject_ge m b) (foldl_bsStep_mono l _ _)
    · exact ih (bsStep m a) hmem

theorem best_score_nonneg (hits : List BlastLine) (k : String) :
    0 ≤ best_score hits k :=
  foldl_bsStep_mono hits (fun _ => 0) k

theorem bsStep_zero (m : String → ℚ) (b : BlastLine) (k : String)
    (hmk : m k = 0) (hb : (b.query = k ∨ b.subject = k) → b.score ≤ 0) :
    bsStep m b k = 0 := by
  unfold bsStep
  set m1 := if m b.query < b.score then upd1 m b.query b.score else m with hm1
  have hm1k : m1 k = 0 := by
    rw [hm1]
    split_ifs with h
    · unfold upd1
      split_ifs with hqk
      · exfalso
        have hs0 : b.score ≤ 0 := hb (Or.inl hqk.symm)
        rw [← hqk, hmk] at h
        linarith
      · exact hmk
    · exact hmk
  split_ifs with h
  · unfold upd1
    split_ifs with hsk
    · exfalso
      have hs0 : b.score ≤ 0 := hb (Or.inr hsk.symm)
      rw [← hsk, hm1k] at h
      linarith
    · exact hm1k
  · exact hm1k

theorem best_score_zero (hits : List BlastLine) (k : String)
    (hz : ∀ x ∈ hits, (x.query = k ∨ x.subject = k) → x.score ≤ 0) :
    best_score hits k = 0 := by
  unfold best_score
  suffices h : ∀ (l : List BlastLine) (m : String → ℚ), m k = 0 →
      (∀ x ∈ l, (x.query = k ∨ x.subject = k) → x.score ≤ 0) →
      l.foldl bsStep m k = 0 from h hits _ rfl hz
  intro l
  induction l with
  | nil => intro m hmk _; exact hmk
  | cons a l ih =>
    intro m hmk hzl
    exact ih (bsStep m a) (bsStep_zero m a k hmk (hzl a (List.mem_cons_self _ _)))
      (fun x hx => hzl x (List.mem_cons_of_mem _ hx))

theorem cscore_foldlM_none (best : String → ℚ) (cutoff : ℚ) (l : List BlastLine)
    (b : BlastLine) (hb : b ∈ l) (hd : max (best b.query) (best b.subject) = 0) :
    ∀ ps, l.foldlM (cscoreStep best cutoff) ps = none := by
  induction l with
  | nil => cases hb
  | cons a l ih =>
    intro ps
    rw [List.foldlM_cons]
    rcases List.mem_cons.mp hb with rfl | hb
    · rw [cscoreStep, if_pos hd]
      rfl
    · cases hs : cscoreStep best cutoff ps a with
      | none => rfl
      | some ps2 =>
        show l.foldlM (cscoreStep best cutoff) ps2 = none
        exact ih hb ps2

theorem cscore_foldlM_isSome (best : String → ℚ) (cutoff : ℚ) (l : List BlastLine)
    (hpos : ∀ b ∈ l, ¬ max (best b.query) (best b.subject) = 0) :
    ∀ ps, (l.foldlM (cscoreStep best cutoff) ps).isSome := by
  induction l with
  | nil => intro ps; rfl
  | cons a l ih =>
    intro ps
    rw [List.foldlM_cons, cscoreStep, if_neg (hpos a (List.mem_cons_self _ _))]
    have ihl := fun ps2 => ih (fun b hb => hpos b (List.mem_cons_of_mem _ hb)) ps2
    split_ifs with hcs
    · exact ihl _
    · exact ihl _

theorem pairsStep_inv (ps0 : List ((String × String) × ℚ)) (k : String × String)
    (s : ℚ) (h0 : ∀ e ∈ ps0, 0 < e.2 ∧ e.2 ≤ 1) (hs0 : 0 < s) (hs1 : s ≤ 1) :
    ∀ e ∈ pairsStep ps0 k s, 0 < e.2 ∧ e.2 ≤ 1 := by
  intro e he
  unfold pairsStep at he
  by_cases hf : (ps0.find? (fun e => e.1 = k)).isSome
  · rw [if_pos hf] at he
    split_ifs at he with hlt
    · unfold pairsSet at he
      rcases List.mem_cons.mp he with rfl | he
      · exact ⟨hs0, hs1⟩
      · exact h0 e (List.mem_filter.mp he).1
    · exact h0 e he
  · rw [if_neg hf] at he
    have hg : pairsGet ((k, 0) :: ps0) k = 0 := by
      unfold pairsGet
      simp [List.find?]
    rw [hg, if_pos hs0] at he
    unfold pairsSet at he
    rcases List.mem_cons.mp he with rfl | he
    · exact ⟨hs0, hs1⟩
    · have hm := (List.mem_filter.mp he).1
      have hp := (List.mem_filter.mp he).2
      rcases List.mem_cons.mp hm with rfl | hee
      · simp at hp
      · exact h0 e hee

theorem cscore_fold_inv (best : String → ℚ) (cutoff : ℚ) (hc : 0 ≤ cutoff)
    (hnn : ∀ x : String, 0 ≤ best x) (l : List BlastLine)
    (hub : ∀ b ∈ l, b.score ≤ best b.query) :
    ∀ ps0 ps, (∀ e ∈ ps0, 0 < e.2 ∧ e.2 ≤ 1) →
      l.foldlM (cscoreStep best cutoff) ps0 = some ps →
      ∀ e ∈ ps, 0 < e.2 ∧ e.2 ≤ 1 := by
  induction l with
  | nil =>
    intro ps0 ps h0 h
    simp [List.foldlM] at h
    rw [← h]
    exact h0
  | cons b l ih =>
    intro ps0 ps h0 h
    rw [List.foldlM_cons] at h
    by_cases hd : max (best b.query) (best b.subject) = 0
    · rw [cscoreStep, if_pos hd] at h
      replace h : (none : Option (List ((String × String) × ℚ))) = some ps := h
      cases h
    · rw [cscoreStep, if_neg hd] at h
      have hdpos : 0 < max (best b.query) (best b.subject) :=
        lt_of_le_of_ne (le_trans (hnn b.query) (le_max_left _ _)) (Ne.symm hd)
      have hs1 : b.score / max (best b.query) (best b.subject) ≤ 1 :=
        (div_le_one hdpos).mpr (le_trans (hub b (List.mem_cons_self _ _))
          (le_max_left _ _))
      have hubl : ∀ x ∈ l, x.score ≤ best x.query :=
        fun x hx => hub x (List.mem_cons_of_mem _ hx)
      split_ifs at h with hcs
      · replace h : l.foldlM (cscoreStep best cutoff)
            (pairsStep ps0 (b.query, b.subject)
              (b.score / max (best b.query) (best b.subject))) = some ps := h
        exact ih hubl _ ps
          (pairsStep_inv ps0 _ _ h0 (lt_of_le_of_lt hc hcs) hs1) h
      · replace h : l.foldlM (cscoreStep best cutoff) ps0 = some ps := h
        exact ih hubl ps0 ps h0 h

/-- C5: c-score bounds — whenever phase 2 of `cscore` completes with a
nonnegative cutoff, every retained pair carries a c-score `c` with
`0 < c ≤ 1`; and a hit whose score equals both participants' best score (the
best being positive) yields exactly `c = 1`. -/
theorem cscore_bounds (hits : List BlastLine) (cutoff : ℚ)
    (ps : List ((String × String) × ℚ)) (hc : 0 ≤ cutoff)
    (h : cscore_pairs hits cutoff = some ps) :
    (∀ e ∈ ps, 0 < e.2 ∧ e.2 ≤ 1) ∧
    (∀ b ∈ hits, best_score hits b.query = b.score →
      best_score hits b.subject = b.score → 0 < b.score →
      b.score / max (best_score hits b.query) (best_score hits b.subject) = 1) := by
  constructor
  · exact cscore_fold_inv (best_score hits) cutoff hc (best_score_nonneg hits) hits
      (fun b hb => (best_score_ge hits b hb).1) [] ps (by simp) h
  · intro b _ h1 h2 h3
    rw [h1, h2, max_self, div_self (ne_of_gt h3)]

/-- C10: phase 2 of `cscore` divides by zero (aborting the run) for a hit all
of whose query-sharing and subject-sharing hits have nonpositive scores; and
when every hit's own score is positive, every denominator
`max(best_score[query], best_score[subject])` is positive and phase 2 never
divides by zero. -/
theorem cscore_zero_denominator (hits : List BlastLine) (cutoff : ℚ) :
    (∀ b ∈ hits,
      (∀ x ∈ hits, (x.query = b.query ∨ x.subject = b.query) → x.score ≤ 0) →
      (∀ x ∈ hits, (x.query = b.subject ∨ x.subject = b.subject) → x.score ≤ 0) →
      cscore_pairs hits cutoff = none) ∧
    ((∀ b ∈ hits, 0 < b.score) →
      (∀ b ∈ hits, 0 < max (best_score hits b.query) (best_score hits b.subject)) ∧
      (cscore_pairs hits cutoff).isSome) := by
  constructor
  · intro b hb hzq hzs
    have h1 : best_score hits b.query = 0 := best_score_zero hits b.query hzq
    have h2 : best_score hits b.subject = 0 := best_score_zero hits b.subject hzs
    exact cscore_foldlM_none _ cutoff hits b hb (by rw [h1, h2]; simp) []
  · intro hpos
    have hden : ∀ b ∈ hits, 0 < max (best_score hits b.query) (best_score hits b.subject) :=
      fun b hb => lt_of_lt_of_le (hpos b hb)
        (le_trans (best_score_ge hits b hb).1 (le_max_left _ _))
    exact ⟨hden, cscore_foldlM_isSome _ cutoff hits
      (fun b hb => ne_of_gt (hden b hb)) []⟩

theorem cscore_single_eval :
    cscore_pairs [blC] (9999/10000) = some [(("qA", "qB"), 1)] := by
  have hne : ¬ ("qB" : String) = "qA" := by decide
  norm_num [cscore_pairs, List.foldlM, cscoreStep, best_score, bsStep, upd1,
    pairsStep, pairsGet, pairsSet, List.find?, blC, eq_false hne]

theorem cscore_bounds_witness :
    0 ≤ (9999/10000 : ℚ) ∧
    0 < ((("qA", "qB"), (1 : ℚ)) : (String × String) × ℚ).2 ∧
    ((("qA", "qB"), (1 : ℚ)) : (String × String) × ℚ).2 ≤ 1 :=
  ⟨by norm_num,
   (cscore_bounds [blC] (9999/10000) [(("qA", "qB"), 1)] (by norm_num)
      cscore_single_eval).1 (("qA", "qB"), 1) (List.mem_singleton.mpr rfl)⟩

theorem cscore_zero_denominator_witness :
    cscore_pairs [blD] (9999/10000) = none ∧
    (cscore_pairs [blC] (9999/10000)).isSome :=
  ⟨(cscore_zero_denominator [blD] (9999/10000)).1 blD (by decide)
      (by decide) (by decide),
   ((cscore_zero_denominator [blC] (9999/10000)).2 (by decide)).2⟩

/-- C1 counterexample: for retained distances `[55]` (median 55) and bin size
20 the code produces cutoff 100, which is strictly below `2 × median = 110` —
so the adaptive cutoff is not the smallest multiple of the bin size at or
above twice the median (that would be 120). -/
theorem report_pairs_cutoff_cex :
    adaptiveCutoff [55] 20 = 100 ∧ npMedian [55] = 55 ∧
    ¬ ((2 : ℚ) * npMedian [55] ≤ ((adaptiveCutoff [55] 20 : ℤ) : ℚ)) := by
  have hm : npMedian [55] = 55 := by
    simp [npMedian]
  have hp : pyInt (2 * npMedian [55]) = 110 := by
    rw [hm]
    unfold pyInt
    rw [if_pos (by norm_num), show ((2 : ℚ) * 55) = ((110 : ℤ) : ℚ) by norm_num,
      Int.floor_intCast]
  have hc : adaptiveCutoff [55] 20 = 100 := by
    unfold adaptiveCutoff
    rw [hp, show Int.fdiv 110 20 = 5 from by decide, Int.ceil_intCast]
    decide
  exact ⟨hc, hm, by rw [hm, hc]; norm_num⟩

/-- C1 (amended): when no fixed cutoff is supplied, the adaptive cutoff of
`report_pairs` is the largest multiple of the bin size that is at most
`int(2 × median)` — not the smallest multiple at or above it — because the
Python 2 expression `cutoff / bins` floor-divides two ints before `math.ceil`
is applied, making the ceil a no-op. -/
theorem report_pairs_cutoff (dists : List ℤ) (bins : ℤ) (hb : 0 < bins) :
    adaptiveCutoff dists bins ≤ pyInt (2 * npMedian dists) ∧
    pyInt (2 * npMedian dists) < adaptiveCutoff dists bins + bins ∧
    bins ∣ adaptiveCutoff dists bins := by
  unfold adaptiveCutoff
  rw [Int.ceil_intCast, Int.fdiv_eq_ediv _ (le_of_lt hb)]
  refine ⟨Int.ediv_mul_le _ (ne_of_gt hb), ?_, ⟨_, mul_comm _ _⟩⟩
  have h2 := Int.lt_ediv_add_one_mul_self (pyInt (2 * npMedian dists)) hb
  rw [add_mul, one_mul] at h2
  linarith

theorem report_pairs_cutoff_witness :
    adaptiveCutoff [60] 20 ≤ pyInt (2 * npMedian [60]) ∧
    pyInt (2 * npMedian [60]) < adaptiveCutoff [60] 20 + 20 ∧
    (20 : ℤ) ∣ adaptiveCutoff [60] 20 :=
  report_pairs_cutoff [60] 20 (by decide)

/-- C7: in `report_pairs` the linked set is exactly the retained distances
that are at most the cutoff; the reported 2.5th/97.5th percentiles are the
entries of the ascending-sorted linked sequence at 0-based indices
`⌊n × 0.025⌋` and `⌊n × 0.975⌋` with no interpolation; and for `n = 100`
those indices evaluate to 2 and 97. -/
theorem report_pairs_percentiles (all_dist : List ℤ) (cutoff : ℤ)
    (h : 0 < (linkedDist all_dist cutoff).length) :
    linkedDist all_dist cutoff = all_dist.filter (fun d => decide (d ≤ cutoff)) ∧
    List.Pairwise (fun a b : ℤ => a ≤ b)
      ((linkedDist all_dist cutoff).mergeSort (fun a b => decide (a ≤ b))) ∧
    reportPercentiles all_dist cutoff = some
      (((linkedDist all_dist cutoff).mergeSort (fun a b => decide (a ≤ b))).getD
        (⌊((linkedDist all_dist cutoff).length : ℚ) * (25/1000)⌋).toNat 0,
       ((linkedDist all_dist cutoff).mergeSort (fun a b => decide (a ≤ b))).getD
        (⌊((linkedDist all_dist cutoff).length : ℚ) * (975/1000)⌋).toNat 0) ∧
    pyInt ((100 : ℚ) * (25/1000)) = 2 ∧ pyInt ((100 : ℚ) * (975/1000)) = 97 := by
  refine ⟨?_, ?_, ?_, ?_, ?_⟩
  · unfold linkedDist
    refine List.filter_congr ?_
    intro d _
    rw [← decide_not]
    exact decide_eq_decide.mpr not_lt
  · refine (List.sorted_mergeSort ?_ ?_ _).imp (fun hab => of_decide_eq_true hab)
    · intro a b c hab hbc
      have h1 := of_decide_eq_true hab
      have h2 := of_decide_eq_true hbc
      exact decide_eq_true (le_trans h1 h2)
    · intro a b
      rcases le_total a b with h1 | h1
      · rw [decide_eq_true h1]; rfl
      · rw [decide_eq_true h1, Bool.or_true]
  · have hq : (0 : ℚ) < ((linkedDist all_dist cutoff).length : ℚ) := by
      exact_mod_cast h
    have hlen : ((linkedDist all_dist cutoff).mergeSort
        (fun a b => decide (a ≤ b))).length = (linkedDist all_dist cutoff).length :=
      List.length_mergeSort _
    have hfloor : ∀ r : ℚ, 0 ≤ r →
        r < ((linkedDist all_dist cutoff).length : ℚ) →
        (pyInt r).toNat < ((linkedDist all_dist cutoff).mergeSort
          (fun a b => decide (a ≤ b))).length ∧ pyInt r = ⌊r⌋ := by
      intro r hr0 hrn
      have hpy : pyInt r = ⌊r⌋ := by unfold pyInt; rw [if_pos hr0]
      constructor
      · rw [hlen, hpy]
        have h1 : ⌊r⌋ < ((linkedDist all_dist cutoff).length : ℤ) :=
          Int.floor_lt.mpr (by exact_mod_cast hrn)
        have h2 : (0 : ℤ) ≤ ⌊r⌋ := Int.floor_nonneg.mpr hr0
        omega
      · exact hpy
    have hb1 := hfloor (((linkedDist all_dist cutoff).length : ℚ) * (25/1000))
      (by positivity) (by nlinarith)
    have hb2 := hfloor (((linkedDist all_dist cutoff).length : ℚ) * (975/1000))
      (by positivity) (by nlinarith)
    have e1 := List.getElem?_eq_getElem hb1.1
    have e2 := List.getElem?_eq_getElem hb2.1
    have g1 := List.getD_eq_getElem?_getD ((linkedDist all_dist cutoff).mergeSort
      (fun a b => decide (a ≤ b)))
      (pyInt (((linkedDist all_dist cutoff).length : ℚ) * (25/1000))).toNat (0 : ℤ)
    have g2 := List.getD_eq_getElem?_getD ((linkedDist all_dist cutoff).mergeSort
      (fun a b => decide (a ≤ b)))
      (pyInt (((linkedDist all_dist cutoff).length : ℚ) * (975/1000))).toNat (0 : ℤ)
    rw [e1] at g1
    rw [e2] at g2
    unfold reportPercentiles
    simp only [e1, e2]
    simp only [← hb1.2, ← hb2.2]
    simp only [g1, g2]
    rfl
  · unfold pyInt
    rw [if_pos (by norm_num)]
    rw [show ((100 : ℚ) * (25/1000)) = 5/2 by norm_num]
    norm_num [Int.floor_eq_iff]
  · unfold pyInt
    rw [if_pos (by norm_num)]
    rw [show ((100 : ℚ) * (975/1000)) = 195/2 by norm_num]
    norm_num [Int.floor_eq_iff]

theorem report_pairs_percentiles_witness :
    linkedDist [3, 1, 2] 2 = [3, 1, 2].filter (fun d => decide (d ≤ 2)) ∧
    pyInt ((100 : ℚ) * (25/1000)) = 2 ∧ pyInt ((100 : ℚ) * (975/1000)) = 97 :=
  ⟨(report_pairs_percentiles [3, 1, 2] 2 (by decide)).1,
   (report_pairs_percentiles [3, 1, 2] 2 (by decide)).2.2.2.1,
   (report_pairs_percentiles [3, 1, 2] 2 (by decide)).2.2.2.2⟩

theorem mem_flatten_grouperAdd (g : List (List ChainItem)) (a x : ChainItem) :
    x ∈ (grouperAdd g a).flatten ↔ x ∈ g.flatten ∨ x = a := by
  unfold grouperAdd
  split_ifs with h
  · simp only [List.any_eq_true, decide_eq_true_eq] at h
    obtain ⟨c, hc, hac⟩ := h
    constructor
    · exact Or.inl
    · rintro (hx | rfl)
      · exact hx
      · exact List.mem_flatten.mpr ⟨c, hc, hac⟩
  · rw [List.flatten_cons, List.singleton_append, List.mem_cons]
    tauto

theorem flatten_joinClusters_perm (g : List (List ChainItem)) (a b : ChainItem) :
    (joinClusters g a b).flatten.Perm g.flatten := by
  unfold joinClusters
  rw [List.flatten_cons, ← List.flatten_append]
  exact (List.filter_append_perm _ g).flatten

theorem mem_flatten_joinClusters (g : List (List ChainItem)) (a b x : ChainItem) :
    x ∈ (joinClusters g a b).flatten ↔ x ∈ g.flatten :=
  (flatten_joinClusters_perm g a b).mem_iff

theorem mem_flatten_grouperJoin (g : List (List ChainItem)) (a b x : ChainItem) :
    x ∈ (grouperJoin g a b).flatten ↔ x ∈ g.flatten ∨ x = a ∨ x = b := by
  unfold grouperJoin
  rw [mem_flatten_joinClusters, mem_flatten_grouperAdd, mem_flatten_grouperAdd]
  tauto

theorem nodup_flatten_grouperAdd (g : List (List ChainItem)) (a : ChainItem)
    (h : g.flatten.Nodup) : (grouperAdd g a).flatten.Nodup := by
  unfold grouperAdd
  split_ifs with hp
  · exact h
  · have ha : a ∉ g.flatten := by
      intro hmem
      obtain ⟨c, hc, hac⟩ := List.mem_flatten.mp hmem
      exact hp (List.any_eq_true.mpr ⟨c, hc, decide_eq_true hac⟩)
    rw [List.flatten_cons, List.singleton_append]
    exact List.nodup_cons.mpr ⟨ha, h⟩

theorem nodup_flatten_grouperJoin (g : List (List ChainItem)) (a b : ChainItem)
    (h : g.flatten.Nodup) : (grouperJoin g a b).flatten.Nodup :=
  (flatten_joinClusters_perm (grouperAdd (grouperAdd g a) b) a b).symm.nodup
    (nodup_flatten_grouperAdd _ b (nodup_flatten_grouperAdd _ a h))

theorem sameCluster_grouperAdd (g : List (List ChainItem)) (a x y : ChainItem)
    (h : sameCluster g x y) : sameCluster (grouperAdd g a) x y := by
  unfold grouperAdd
  split_ifs
  · exact h
  · obtain ⟨c, hc, hx, hy⟩ := h
    exact ⟨c, List.mem_cons_of_mem _ hc, hx, hy⟩

theorem sameCluster_joinClusters (g : List (List ChainItem)) (a b x y : ChainItem)
    (h : sameCluster g x y) : sameCluster (joinClusters g a b) x y := by
  obtain ⟨c, hc, hx, hy⟩ := h
  unfold joinClusters
  by_cases hp : (decide (a ∈ c) || decide (b ∈ c)) = true
  · refine ⟨_, List.mem_cons_self _ _, ?_, ?_⟩
    · exact List.mem_flatten.mpr ⟨c, List.mem_filter.mpr ⟨hc, hp⟩, hx⟩
    · exact List.mem_flatten.mpr ⟨c, List.mem_filter.mpr ⟨hc, hp⟩, hy⟩
  · refine ⟨c, List.mem_cons_of_mem _ (List.mem_filter.mpr ⟨hc, ?_⟩), hx, hy⟩
    simp only [Bool.not_eq_true] at hp
    rw [hp]
    rfl

theorem sameCluster_grouperJoin (g : List (List ChainItem)) (a b x y : ChainItem)
    (h : sameCluster g x y) : sameCluster (grouperJoin g a b) x y :=
  sameCluster_joinClusters _ a b x y
    (sameCluster_grouperAdd _ b x y (sameCluster_grouperAdd _ a x y h))

theorem grouperJoin_joins (g : List (List ChainItem)) (a b : ChainItem) :
    sameCluster (grouperJoin g a b) a b := by
  unfold grouperJoin joinClusters
  have ha : a ∈ (grouperAdd (grouperAdd g a) b).flatten := by
    rw [mem_flatten_grouperAdd, mem_flatten_grouperAdd]
    tauto
  have hb : b ∈ (grouperAdd (grouperAdd g a) b).flatten := by
    rw [mem_flatten_grouperAdd]
    tauto
  obtain ⟨ca, hca, haca⟩ := List.mem_flatten.mp ha
  obtain ⟨cb, hcb, hbcb⟩ := List.mem_flatten.mp hb
  refine ⟨_, List.mem_cons_self _ _, ?_, ?_⟩
  · exact List.mem_flatten.mpr ⟨ca, List.mem_filter.mpr ⟨hca, by simp [haca]⟩, haca⟩
  · exact List.mem_flatten.mpr ⟨cb, List.mem_filter.mpr ⟨hcb, by simp [hbcb]⟩, hbcb⟩

theorem orientInv_grouperAdd (g : List (List ChainItem)) (a : ChainItem)
    (h : ∀ c ∈ g, ∀ x ∈ c, ∀ y ∈ c, x.2.orientation = y.2.orientation) :
    ∀ c ∈ grouperAdd g a, ∀ x ∈ c, ∀ y ∈ c, x.2.orientation = y.2.orientation := by
  unfold grouperAdd
  split_ifs
  · exact h
  · intro c hc
    rcases List.mem_cons.mp hc with rfl | hc
    · intro x hx y hy
      rcases List.mem_singleton.mp hx with rfl
      rcases List.mem_singleton.mp hy with rfl
      rfl
    · exact h c hc

theorem orientInv_joinClusters (g : List (List ChainItem)) (a b : ChainItem)
    (hab : a.2.orientation = b.2.orientation)
    (h : ∀ c ∈ g, ∀ x ∈ c, ∀ y ∈ c, x.2.orientation = y.2.orientation) :
    ∀ c ∈ joinClusters g a b, ∀ x ∈ c, ∀ y ∈ c, x.2.orientation = y.2.orientation := by
  intro c hc
  unfold joinClusters at hc
  rcases List.mem_cons.mp hc with rfl | hc
  · have key : ∀ x ∈ (g.filter (fun c => decide (a ∈ c) || decide (b ∈ c))).flatten,
        x.2.orientation = a.2.orientation := by
      intro x hx
      obtain ⟨cx, hcx, hxcx⟩ := List.mem_flatten.mp hx
      have hcx2 := List.mem_filter.mp hcx
      have hor : (a ∈ cx) ∨ (b ∈ cx) := by
        have h2 := hcx2.2
        simp only [Bool.or_eq_true, decide_eq_true_eq] at h2
        exact h2
      rcases hor with hor | hor
      · exact h cx hcx2.1 x hxcx a hor
      · exact (h cx hcx2.1 x hxcx b hor).trans hab.symm
    intro x hx y hy
    rw [key x hx, key y hy]
  · exact h c (List.mem_filter.mp hc).1

theorem orientInv_grouperJoin (g : List (List ChainItem)) (a b : ChainItem)
    (hab : a.2.orientation = b.2.orientation)
    (h : ∀ c ∈ g, ∀ x ∈ c, ∀ y ∈ c, x.2.orientation = y.2.orientation) :
    ∀ c ∈ grouperJoin g a b, ∀ x ∈ c, ∀ y ∈ c, x.2.orientation = y.2.orientation :=
  orientInv_joinClusters _ a b hab
    (orientInv_grouperAdd _ b (orientInv_grouperAdd _ a h))

theorem get_distance_comm (a b : BlastLine) (ax : Bool) :
    get_distance a b ax = get_distance b a ax := by
  unfold get_distance range_distance_ee
  cases ax <;> simp [max_comm, min_comm]

theorem hspClose_symm (xdist ydist : ℤ) (a b : ChainItem)
    (h : hspClose xdist ydist a b) : hspClose xdist ydist b a := by
  obtain ⟨h1, h2, h3⟩ := h
  refine ⟨h1.symm, ?_, ?_⟩
  · rw [get_distance_comm]; exact h2
  · rw [get_distance_comm]; exact h3

theorem innerLoop_sameCluster (xdist ydist : ℤ) (a : ChainItem)
    (pts : List ChainItem) (g : List (List ChainItem)) (x y : ChainItem)
    (h : sameCluster g x y) : sameCluster (innerLoop xdist ydist a g pts) x y := by
  induction pts generalizing g with
  | nil => exact h
  | cons b pts ih =>
    rw [innerLoop]
    apply ih
    split_ifs
    · exact sameCluster_grouperJoin _ _ _ _ _ h
    · exact h

theorem innerLoop_flatten_mem_of (xdist ydist : ℤ) (a : ChainItem)
    (pts : List ChainItem) (g : List (List ChainItem)) (x : ChainItem)
    (h : x ∈ g.flatten) : x ∈ (innerLoop xdist ydist a g pts).flatten := by
  induction pts generalizing g with
  | nil => exact h
  | cons b pts ih =>
    rw [innerLoop]
    apply ih
    split_ifs
    · rw [mem_flatten_grouperJoin]
      exact Or.inl h
    · exact h

theorem innerLoop_flatten_mem (xdist ydist : ℤ) (a : ChainItem)
    (pts : List ChainItem) (g : List (List ChainItem)) (x : ChainItem)
    (h : x ∈ (innerLoop xdist ydist a g pts).flatten) :
    x ∈ g.flatten ∨ x = a ∨ x ∈ pts := by
  induction pts generalizing g with
  | nil => exact Or.inl h
  | cons b pts ih =>
    rw [innerLoop] at h
    rcases ih _ h with h1 | h2 | h3
    · split_ifs at h1 with hc
      · rcases (mem_flatten_grouperJoin _ _ _ _).mp h1 with h4 | rfl | rfl
        · exact Or.inl h4
        · exact Or.inr (Or.inl rfl)
        · exact Or.inr (Or.inr (List.mem_cons_self _ _))
      · exact Or.inl h1
    · exact Or.inr (Or.inl h2)
    · exact Or.inr (Or.inr (List.mem_cons_of_mem _ h3))

theorem innerLoop_nodup (xdist ydist : ℤ) (a : ChainItem) (pts : List ChainItem)
    (g : List (List ChainItem)) (h : g.flatten.Nodup) :
    (innerLoop xdist ydist a g pts).flatten.Nodup := by
  induction pts generalizing g with
  | nil => exact h
  | cons b pts ih =>
    rw [innerLoop]
    apply ih
    split_ifs
    · exact nodup_flatten_grouperJoin _ _ _ h
    · exact h

theorem innerLoop_orientInv (xdist ydist : ℤ) (a : ChainItem) (pts : List ChainItem)
    (g : List (List ChainItem))
    (h : ∀ c ∈ g, ∀ x ∈ c, ∀ y ∈ c, x.2.orientation = y.2.orientation) :
    ∀ c ∈ innerLoop xdist ydist a g pts, ∀ x ∈ c, ∀ y ∈ c,
      x.2.orientation = y.2.orientation := by
  induction pts generalizing g with
  | nil => exact h
  | cons b pts ih =>
    rw [innerLoop]
    apply ih
    split_ifs with hc
    · exact orientInv_grouperJoin _ a b hc.1 h
    · exact h

theorem innerLoop_joins (xdist ydist : ℤ) (a : ChainItem) (pts : List ChainItem)
    (g : List (List ChainItem)) (q : ChainItem) (hq : q ∈ pts)
    (hc : hspClose xdist ydist a q) :
    sameCluster (innerLoop xdist ydist a g pts) a q := by
  induction pts generalizing g with
  | nil => cases hq
  | cons b pts ih =>
    rw [innerLoop]
    rcases List.mem_cons.mp hq with rfl | hq2
    · rw [if_pos hc]
      exact innerLoop_sameCluster _ _ _ _ _ _ _ (grouperJoin_joins g a q)
    · exact ih _ hq2

theorem processPoints_sameCluster (xdist ydist : ℤ) (pts : List ChainItem)
    (g : List (List ChainItem)) (x y : ChainItem) (h : sameCluster g x y) :
    sameCluster (processPoints xdist ydist g pts) x y := by
  induction pts generalizing g with
  | nil => exact h
  | cons a pts ih =>
    rw [processPoints]
    exact ih _ (innerLoop_sameCluster _ _ _ _ _ _ _
      (sameCluster_grouperAdd _ _ _ _ h))

theorem processPoints_flatten_mem_iff (xdist ydist : ℤ) (pts : List ChainItem)
    (g : List (List ChainItem)) (x : ChainItem) :
    x ∈ (processPoints xdist ydist g pts).flatten ↔ x ∈ g.flatten ∨ x ∈ pts := by
  induction pts generalizing g with
  | nil => rw [processPoints]; simp
  | cons a pts ih =>
    rw [processPoints, ih]
    constructor
    · rintro (h1 | h2)
      · rcases innerLoop_flatten_mem _ _ _ _ _ _ h1 with h3 | rfl | h4
        · rcases (mem_flatten_grouperAdd _ _ _).mp h3 with h5 | rfl
          · exact Or.inl h5
          · exact Or.inr (List.mem_cons_self _ _)
        · exact Or.inr (List.mem_cons_self _ _)
        · exact Or.inr (List.mem_cons_of_mem _ h4)
      · exact Or.inr (List.mem_cons_of_mem _ h2)
    · rintro (h1 | h2)
      · refine Or.inl (innerLoop_flatten_mem_of _ _ _ _ _ _ ?_)
        rw [mem_flatten_grouperAdd]
        exact Or.inl h1
      · rcases List.mem_cons.mp h2 with rfl | h3
        · refine Or.inl (innerLoop_flatten_mem_of _ _ _ _ _ _ ?_)
          rw [mem_flatten_grouperAdd]
          exact Or.inr rfl
        · exact Or.inr h3

theorem processPoints_nodup (xdist ydist : ℤ) (pts : List ChainItem)
    (g : List (List ChainItem)) (h : g.flatten.Nodup) :
    (processPoints xdist ydist g pts).flatten.Nodup := by
  induction pts generalizing g with
  | nil => exact h
  | cons a pts ih =>
    rw [processPoints]
    exact ih _ (innerLoop_nodup _ _ _ _ _ (nodup_flatten_grouperAdd _ _ h))

theorem processPoints_orientInv (xdist ydist : ℤ) (pts : List ChainItem)
    (g : List (List ChainItem))
    (h : ∀ c ∈ g, ∀ x ∈ c, ∀ y ∈ c, x.2.orientation = y.2.orientation) :
    ∀ c ∈ processPoints xdist ydist g pts, ∀ x ∈ c, ∀ y ∈ c,
      x.2.orientation = y.2.orientation := by
  induction pts generalizing g with
  | nil => exact h
  | cons a pts ih =>
    rw [processPoints]
    exact ih _ (innerLoop_orientInv _ _ _ _ _ (orientInv_grouperAdd _ _ h))

theorem processPoints_joins (xdist ydist : ℤ) (pts : List ChainItem)
    (g : List (List ChainItem)) (p q : ChainItem) (hp : p ∈ pts) (hq : q ∈ pts)
    (hcond : hspClose xdist ydist p q) :
    sameCluster (processPoints xdist ydist g pts) p q := by
  induction pts generalizing g with
  | nil => cases hp
  | cons a pts ih =>
    rw [processPoints]
    rcases List.mem_cons.mp hp with hpa | hp2
    · rcases List.mem_cons.mp hq with hqa | hq2
      · have hmem : p ∈ (processPoints xdist ydist
            (innerLoop xdist ydist a (grouperAdd g a) pts) pts).flatten := by
          rw [processPoints_flatten_mem_iff]
          refine Or.inl (innerLoop_flatten_mem_of _ _ _ _ _ _ ?_)
          rw [mem_flatten_grouperAdd]
          exact Or.inr hpa
        obtain ⟨c, hc, hpc⟩ := List.mem_flatten.mp hmem
        rw [hpa] at hpc
        rw [hpa, hqa]
        exact ⟨c, hc, hpc, hpc⟩
      · rw [hpa]
        rw [hpa] at hcond
        exact processPoints_sameCluster _ _ _ _ _ _
          (innerLoop_joins _ _ _ _ _ _ hq2 hcond)
    · rcases List.mem_cons.mp hq with hqa | hq2
      · rw [hqa]
        rw [hqa] at hcond
        have h1 := innerLoop_joins xdist ydist a pts (grouperAdd g a) p hp2
          (hspClose_symm _ _ _ _ hcond)
        obtain ⟨c, hc, h3, h4⟩ := processPoints_sameCluster xdist ydist pts _ _ _ h1
        exact ⟨c, hc, h4, h3⟩
      · exact ih _ hp2 hq2

theorem runGroups_sameCluster (xdist ydist : ℤ) (groups : List (List ChainItem))
    (g : List (List ChainItem)) (x y : ChainItem) (h : sameCluster g x y) :
    sameCluster (groups.foldl
      (fun g grp => processPoints xdist ydist g (grp.mergeSort coordLe)) g) x y := by
  induction groups generalizing g with
  | nil => exact h
  | cons grp groups ih =>
    rw [List.foldl_cons]
    exact ih _ (processPoints_sameCluster _ _ _ _ _ _ h)

theorem runGroups_flatten_mem_iff (xdist ydist : ℤ) (groups : List (List ChainItem))
    (g : List (List ChainItem)) (x : ChainItem) :
    x ∈ (groups.foldl
      (fun g grp => processPoints xdist ydist g (grp.mergeSort coordLe)) g).flatten ↔
    x ∈ g.flatten ∨ ∃ grp ∈ groups, x ∈ grp := by
  induction groups generalizing g with
  | nil => simp
  | cons grp groups ih =>
    rw [List.foldl_cons, ih]
    rw [processPoints_flatten_mem_iff, List.mem_mergeSort]
    constructor
    · rintro ((h1 | h2) | ⟨gr, hgr, hx⟩)
      · exact Or.inl h1
      · exact Or.inr ⟨grp, List.mem_cons_self _ _, h2⟩
      · exact Or.inr ⟨gr, List.mem_cons_of_mem _ hgr, hx⟩
    · rintro (h1 | ⟨gr, hgr, hx⟩)
      · exact Or.inl (Or.inl h1)
      · rcases List.mem_cons.mp hgr with rfl | h3
        · exact Or.inl (Or.inr hx)
        · exact Or.inr ⟨gr, h3, hx⟩

theorem runGroups_nodup (xdist ydist : ℤ) (groups : List (List ChainItem))
    (g : List (List ChainItem)) (h : g.flatten.Nodup) :
    (groups.foldl
      (fun g grp => processPoints xdist ydist g (grp.mergeSort coordLe)) g).flatten.Nodup := by
  induction groups generalizing g with
  | nil => exact h
  | cons grp groups ih =>
    rw [List.foldl_cons]
    exact ih _ (processPoints_nodup _ _ _ _ h)

theorem runGroups_orientInv (xdist ydist : ℤ) (groups : List (List ChainItem))
    (g : List (List ChainItem))
    (h : ∀ c ∈ g, ∀ x ∈ c, ∀ y ∈ c, x.2.orientation = y.2.orientation) :
    ∀ c ∈ groups.foldl
      (fun g grp => processPoints xdist ydist g (grp.mergeSort coordLe)) g,
      ∀ x ∈ c, ∀ y ∈ c, x.2.orientation = y.2.orientation := by
  induction groups generalizing g with
  | nil => exact h
  | cons grp groups ih =>
    rw [List.foldl_cons]
    exact ih _ (processPoints_orientInv _ _ _ _ h)

theorem runGroups_joins (xdist ydist : ℤ) (groups : List (List ChainItem))
    (g : List (List ChainItem)) (p q : ChainItem) (grp : List ChainItem)
    (hgrp : grp ∈ groups) (hp : p ∈ grp) (hq : q ∈ grp)
    (hcond : hspClose xdist ydist p q) :
    sameCluster (groups.foldl
      (fun g grp => processPoints xdist ydist g (grp.mergeSort coordLe)) g) p q := by
  induction groups generalizing g with
  | nil => cases hgrp
  | cons gr groups ih =>
    rw [List.foldl_cons]
    rcases List.mem_cons.mp hgrp with rfl | h2
    · exact runGroups_sameCluster _ _ _ _ _ _
        (processPoints_joins _ _ _ _ _ _
          (List.mem_mergeSort.mpr hp) (List.mem_mergeSort.mpr hq) hcond)
    · exact ih _ h2

theorem keyLe_refl (k : String × String) : keyLe k k :=
  Or.inr ⟨rfl, le_refl _⟩

theorem keyLe_trans (k l m : String × String) (h1 : keyLe k l) (h2 : keyLe l m) :
    keyLe k m := by
  rcases h1 with h1 | ⟨h1, h1b⟩
  · rcases h2 with h2 | ⟨h2, h2b⟩
    · exact Or.inl (lt_trans h1 h2)
    · exact Or.inl (lt_of_lt_of_le h1 (le_of_eq h2))
  · rcases h2 with h2 | ⟨h2, h2b⟩
    · exact Or.inl (lt_of_le_of_lt (le_of_eq h1) h2)
    · exact Or.inr ⟨h1.trans h2, le_trans h1b h2b⟩

theorem keyLe_total (k l : String × String) : keyLe k l ∨ keyLe l k := by
  rcases lt_trichotomy k.1 l.1 with h | h | h
  · exact Or.inl (Or.inl h)
  · rcases le_total k.2 l.2 with h2 | h2
    · exact Or.inl (Or.inr ⟨h, h2⟩)
    · exact Or.inr (Or.inr ⟨h.symm, h2⟩)
  · exact Or.inr (Or.inl h)

theorem keyLe_antisymm (k l : String × String) (h1 : keyLe k l) (h2 : keyLe l k) :
    k = l := by
  rcases h1 with h1 | ⟨h1, h1b⟩
  · rcases h2 with h2 | ⟨h2, h2b⟩
    · exact absurd (lt_trans h1 h2) (lt_irrefl _)
    · exact absurd (h2 ▸ h1) (lt_irrefl _)
  · rcases h2 with h2 | ⟨h2, h2b⟩
    · exact absurd (h1 ▸ h2) (lt_irrefl _)
    · exact Prod.ext h1 (le_antisymm h1b h2b)

theorem sortedKey_mergeSort (l : List ChainItem) :
    (l.mergeSort keyLeB).Pairwise
      (fun x y => keyLe (pairKey x.2) (pairKey y.2)) := by
  refine (List.sorted_mergeSort ?_ ?_ l).imp (fun h => of_decide_eq_true h)
  · intro a b c hab hbc
    have h1 := of_decide_eq_true hab
    have h2 := of_decide_eq_true hbc
    exact decide_eq_true (keyLe_trans _ _ _ h1 h2)
  · intro a b
    rcases keyLe_total (pairKey a.2) (pairKey b.2) with h | h
    · rw [decide_eq_true h]; rfl
    · rw [decide_eq_true h, Bool.or_true]

theorem dropWhile_head_false {α : Type} (p : α → Bool) (l : List α) (d : α)
    (ds : List α) (h : l.dropWhile p = d :: ds) : p d = false := by
  induction l with
  | nil => simp at h
  | cons a l ih =>
    rw [List.dropWhile_cons] at h
    by_cases hp : p a = true
    · rw [if_pos hp] at h
      exact ih h
    · rw [if_neg hp] at h
      injection h with h1 h2
      rw [← h1]
      cases hpa : p a
      · rfl
      · exact absurd hpa hp

theorem groupPairs_flatten : ∀ l : List ChainItem, (groupPairs l).flatten = l
  | [] => by rw [groupPairs]; rfl
  | a :: rest => by
      rw [groupPairs, List.flatten_cons,
        groupPairs_flatten
          (rest.dropWhile (fun b => decide (pairKey b.2 = pairKey a.2))),
        List.cons_append, List.takeWhile_append_dropWhile]
termination_by l => l.length
decreasing_by
  simp only [List.length_cons]
  exact Nat.lt_succ_of_le (List.Sublist.length_le (List.dropWhile_sublist _))

theorem groupPairs_same : ∀ l : List ChainItem,
    l.Pairwise (fun x y => keyLe (pairKey x.2) (pairKey y.2)) →
    ∀ p q : ChainItem, p ∈ l → q ∈ l → pairKey p.2 = pairKey q.2 →
    ∃ grp ∈ groupPairs l, p ∈ grp ∧ q ∈ grp
  | [], _, p, _, hp, _, _ => absurd hp (List.not_mem_nil p)
  | a :: rest, hs, p, q, hp, hq, hk => by
      have hs1 : ∀ x ∈ rest, keyLe (pairKey a.2) (pairKey x.2) :=
        (List.pairwise_cons.mp hs).1
      have hs2 : rest.Pairwise (fun x y => keyLe (pairKey x.2) (pairKey y.2)) :=
        (List.pairwise_cons.mp hs).2
      have hmem : ∀ x : ChainItem, x ∈ a :: rest → pairKey x.2 = pairKey a.2 →
          x ∈ a :: rest.takeWhile (fun b => decide (pairKey b.2 = pairKey a.2)) := by
        intro x hx hkey
        rcases List.mem_cons.mp hx with rfl | hx2
        · exact List.mem_cons_self _ _
        · refine List.mem_cons_of_mem _ ?_
          have hsplit := List.takeWhile_append_dropWhile
            (p := fun b => decide (pairKey b.2 = pairKey a.2)) (l := rest)
          rw [← hsplit] at hx2
          rcases List.mem_append.mp hx2 with h1 | h1
          · exact h1
          · exfalso
            cases hd : rest.dropWhile (fun b => decide (pairKey b.2 = pairKey a.2)) with
            | nil => rw [hd] at h1; cases h1
            | cons d ds =>
              rw [hd] at h1
              have hdf : decide (pairKey d.2 = pairKey a.2) = false :=
                dropWhile_head_false
                  (fun b => decide (pairKey b.2 = pairKey a.2)) rest d ds hd
              have hdne : pairKey d.2 ≠ pairKey a.2 := by
                intro hcon
                rw [decide_eq_true hcon] at hdf
                simp at hdf
              have hdrest : d ∈ rest := by
                have hmd : d ∈ rest.dropWhile
                    (fun b => decide (pairKey b.2 = pairKey a.2)) := by
                  rw [hd]
                  exact List.mem_cons_self _ _
                exact (List.dropWhile_sublist _).subset hmd
              have had : keyLe (pairKey a.2) (pairKey d.2) := hs1 d hdrest
              rcases List.mem_cons.mp h1 with rfl | h2
              · exact hdne hkey
              · have hsd : (d :: ds).Pairwise
                    (fun x y => keyLe (pairKey x.2) (pairKey y.2)) := by
                  rw [← hd]
                  exact List.Pairwise.sublist (List.dropWhile_sublist _) hs2
                have hdx : keyLe (pairKey d.2) (pairKey x.2) :=
                  (List.pairwise_cons.mp hsd).1 x h2
                have h3 : keyLe (pairKey d.2) (pairKey a.2) := hkey ▸ hdx
                exact hdne (keyLe_antisymm _ _ h3 had)
      by_cases hpa : pairKey p.2 = pairKey a.2
      · have hqa : pairKey q.2 = pairKey a.2 := hk ▸ hpa
        refine ⟨_, ?_, hmem p hp hpa, hmem q hq hqa⟩
        rw [groupPairs]
        exact List.mem_cons_self _ _
      · have hqa : pairKey q.2 ≠ pairKey a.2 := fun hcon => hpa (hk.trans hcon)
        have hmemdrop : ∀ x : ChainItem, x ∈ a :: rest → pairKey x.2 ≠ pairKey a.2 →
            x ∈ rest.dropWhile (fun b => decide (pairKey b.2 = pairKey a.2)) := by
          intro x hx hne2
          rcases List.mem_cons.mp hx with rfl | hx2
          · exact absurd rfl hne2
          · have hsplit := List.takeWhile_append_dropWhile
              (p := fun b => decide (pairKey b.2 = pairKey a.2)) (l := rest)
            rw [← hsplit] at hx2
            rcases List.mem_append.mp hx2 with h1 | h1
            · have h2 := List.mem_takeWhile_imp h1
              exact absurd (of_decide_eq_true h2) hne2
            · exact h1
        obtain ⟨grp, hgrp, hpg, hqg⟩ := groupPairs_same
          (rest.dropWhile (fun b => decide (pairKey b.2 = pairKey a.2)))
          (List.Pairwise.sublist (List.dropWhile_sublist _) hs2)
          p q (hmemdrop p hp hpa) (hmemdrop q hq hqa) hk
        refine ⟨grp, ?_, hpg, hqg⟩
        rw [groupPairs]
        exact List.mem_cons_of_mem _ hgrp
termination_by l => l.length
decreasing_by
  simp only [List.length_cons]
  exact Nat.lt_succ_of_le (List.Sublist.length_le (List.dropWhile_sublist _))



theorem nodup_all_eq_singleton {α : Type} (l : List α) (p : α) (hn : l.Nodup)
    (hall : ∀ x ∈ l, x = p) (hp : p ∈ l) : l = [p] := by
  cases l with
  | nil => cases hp
  | cons x t =>
    have hx : x = p := hall x (List.mem_cons_self _ _)
    subst hx
    cases t with
    | nil => rfl
    | cons y t2 =>
      exfalso
      have hy : y = x := hall y (List.mem_cons_of_mem _ (List.mem_cons_self _ _))
      have hnx : x ∉ y :: t2 := (List.nodup_cons.mp hn).1
      refine hnx ?_
      rw [← hy]
      exact List.mem_cons_self y t2

theorem grouperAdd_isolated (g : List (List ChainItem)) (a p : ChainItem)
    (hInv : ∀ c ∈ g, p ∈ c → c = [p]) :
    ∀ c ∈ grouperAdd g a, p ∈ c → c = [p] := by
  unfold grouperAdd
  split_ifs
  · exact hInv
  · intro c hc hp
    rcases List.mem_cons.mp hc with rfl | hc2
    · rcases List.mem_singleton.mp hp with rfl
      rfl
    · exact hInv c hc2 hp

theorem joinClusters_isolated (g : List (List ChainItem)) (a b p : ChainItem)
    (hn : g.flatten.Nodup) (hInv : ∀ c ∈ g, p ∈ c → c = [p])
    (hab : a = p → b = p) (hba : b = p → a = p) :
    ∀ c ∈ joinClusters g a b, p ∈ c → c = [p] := by
  intro c hc hp
  unfold joinClusters at hc
  rcases List.mem_cons.mp hc with rfl | hc2
  · obtain ⟨c0, hc0, hpc0⟩ := List.mem_flatten.mp hp
    have hc0g := (List.mem_filter.mp hc0).1
    have hc0ab := (List.mem_filter.mp hc0).2
    have hc0p : c0 = [p] := hInv c0 hc0g hpc0
    have habp : a = p ∧ b = p := by
      simp only [Bool.or_eq_true, decide_eq_true_eq] at hc0ab
      rcases hc0ab with h | h
      · have hap : a = p := by
          rw [hc0p] at h
          exact List.mem_singleton.mp h
        exact ⟨hap, hab hap⟩
      · have hbp : b = p := by
          rw [hc0p] at h
          exact List.mem_singleton.mp h
        exact ⟨hba hbp, hbp⟩
    have hall : ∀ x ∈ (g.filter
        (fun c => decide (a ∈ c) || decide (b ∈ c))).flatten, x = p := by
      intro x hx
      obtain ⟨c1, hc1, hxc1⟩ := List.mem_flatten.mp hx
      have hc1g := (List.mem_filter.mp hc1).1
      have hc1ab := (List.mem_filter.mp hc1).2
      have hpc1 : p ∈ c1 := by
        simp only [Bool.or_eq_true, decide_eq_true_eq] at hc1ab
        rcases hc1ab with h | h
        · rw [← habp.1]; exact h
        · rw [← habp.2]; exact h
      rw [hInv c1 hc1g hpc1] at hxc1
      exact List.mem_singleton.mp hxc1
    have hjn : (joinClusters g a b).flatten.Nodup :=
      (flatten_joinClusters_perm g a b).symm.nodup hn
    have hhn : (g.filter
        (fun c => decide (a ∈ c) || decide (b ∈ c))).flatten.Nodup := by
      unfold joinClusters at hjn
      rw [List.flatten_cons] at hjn
      exact (List.nodup_append.mp hjn).1
    exact nodup_all_eq_singleton _ p hhn hall hp
  · exact hInv c (List.mem_filter.mp hc2).1 hp

theorem grouperJoin_isolated (g : List (List ChainItem)) (a b p : ChainItem)
    (hn : g.flatten.Nodup) (hInv : ∀ c ∈ g, p ∈ c → c = [p])
    (hab : a = p → b = p) (hba : b = p → a = p) :
    ∀ c ∈ grouperJoin g a b, p ∈ c → c = [p] := by
  unfold grouperJoin
  exact joinClusters_isolated _ a b p
    (nodup_flatten_grouperAdd _ b (nodup_flatten_grouperAdd _ a hn))
    (grouperAdd_isolated _ b p (grouperAdd_isolated _ a p hInv))
    hab hba

theorem innerLoop_isolated (xdist ydist : ℤ) (p a : ChainItem) :
    ∀ (pts : List ChainItem) (g : List (List ChainItem)),
    g.flatten.Nodup → (∀ c ∈ g, p ∈ c → c = [p]) →
    (∀ b ∈ pts, hspClose xdist ydist a b →
      (a = p → b = p) ∧ (b = p → a = p)) →
    ∀ c ∈ innerLoop xdist ydist a g pts, p ∈ c → c = [p]
  | [], _, _, hInv, _ => hInv
  | b :: pts, g, hn, hInv, hJ => by
      rw [innerLoop]
      by_cases hc : hspClose xdist ydist a b
      · rw [if_pos hc]
        exact innerLoop_isolated xdist ydist p a pts _
          (nodup_flatten_grouperJoin _ _ _ hn)
          (grouperJoin_isolated _ a b p hn hInv
            (hJ b (List.mem_cons_self _ _) hc).1
            (hJ b (List.mem_cons_self _ _) hc).2)
          (fun q hq => hJ q (List.mem_cons_of_mem _ hq))
      · rw [if_neg hc]
        exact innerLoop_isolated xdist ydist p a pts g hn hInv
          (fun q hq => hJ q (List.mem_cons_of_mem _ hq))

theorem processPoints_isolated (xdist ydist : ℤ) (p : ChainItem) :
    ∀ (pts : List ChainItem) (g : List (List ChainItem)),
    g.flatten.Nodup → (∀ c ∈ g, p ∈ c → c = [p]) →
    (∀ x ∈ pts, ∀ y ∈ pts, hspClose xdist ydist x y →
      (x = p → y = p) ∧ (y = p → x = p)) →
    ∀ c ∈ processPoints xdist ydist g pts, p ∈ c → c = [p]
  | [], _, _, hInv, _ => hInv
  | a :: pts, g, hn, hInv, hJ => by
      rw [processPoints]
      exact processPoints_isolated xdist ydist p pts _
        (innerLoop_nodup _ _ _ _ _ (nodup_flatten_grouperAdd _ _ hn))
        (innerLoop_isolated xdist ydist p a pts _
          (nodup_flatten_grouperAdd _ _ hn)
          (grouperAdd_isolated _ a p hInv)
          (fun b hb hcl => hJ a (List.mem_cons_self _ _)
            b (List.mem_cons_of_mem _ hb) hcl))
        (fun x hx y hy hcl => hJ x (List.mem_cons_of_mem _ hx)
          y (List.mem_cons_of_mem _ hy) hcl)

theorem runGroups_isolated (xdist ydist : ℤ) (p : ChainItem) :
    ∀ (groups : List (List ChainItem)) (g : List (List ChainItem)),
    g.flatten.Nodup → (∀ c ∈ g, p ∈ c → c = [p]) →
    (∀ grp ∈ groups, ∀ x ∈ grp, ∀ y ∈ grp, hspClose xdist ydist x y →
      (x = p → y = p) ∧ (y = p → x = p)) →
    ∀ c ∈ groups.foldl
      (fun g grp => processPoints xdist ydist g (grp.mergeSort coordLe)) g,
      p ∈ c → c = [p]
  | [], _, _, hInv, _ => hInv
  | grp :: groups, g, hn, hInv, hJ => by
      rw [List.foldl_cons]
      exact runGroups_isolated xdist ydist p groups _
        (processPoints_nodup _ _ _ _ hn)
        (processPoints_isolated xdist ydist p (grp.mergeSort coordLe) g hn hInv
          (fun x hx y hy hcl => hJ grp (List.mem_cons_self _ _)
            x (List.mem_mergeSort.mp hx) y (List.mem_mergeSort.mp hy) hcl))
        (fun gr hgr => hJ gr (List.mem_cons_of_mem _ hgr))

theorem groupPairs_key : ∀ l : List ChainItem, ∀ grp ∈ groupPairs l,
    ∀ x ∈ grp, ∀ y ∈ grp, pairKey x.2 = pairKey y.2
  | [] => by
      rw [groupPairs]
      intro grp hgrp
      cases hgrp
  | a :: rest => by
      rw [groupPairs]
      intro grp hgrp x hx y hy
      rcases List.mem_cons.mp hgrp with rfl | hgrp2
      · have key : ∀ z ∈ a :: rest.takeWhile
            (fun b => decide (pairKey b.2 = pairKey a.2)),
            pairKey z.2 = pairKey a.2 := by
          intro z hz
          rcases List.mem_cons.mp hz with rfl | hz2
          · rfl
          · have h2 := List.mem_takeWhile_imp hz2
            exact of_decide_eq_true h2
        rw [key x hx, key y hy]
      · exact groupPairs_key
          (rest.dropWhile (fun b => decide (pairKey b.2 = pairKey a.2)))
          grp hgrp2 x hx y hy
termination_by l => l.length
decreasing_by
  simp only [List.length_cons]
  exact Nat.lt_succ_of_le (List.Sublist.length_le (List.dropWhile_sublist _))

/-- C6: clustering invariants of `chain_HSPs` (src/formats/blast.py lines
504-542): (i) every cluster of the final partition has constant orientation —
records of differing orientation are never placed in the same cluster;
(ii) the clusters partition the input — the flattened partition has no
duplicates and holds exactly the (indexed) input records, so every input
record appears in exactly one output cluster; (iii) two records with equal
`(query, subject)` key, equal orientation, query-axis distance ≤ `xdist`
and subject-axis distance ≤ `ydist` end up in the same cluster; (iv) a record
with no close neighbour — no other record of the same `(query, subject)` key
within the orientation/distance join condition — is emitted as its own
singleton cluster: `[p]` is a cluster, and any cluster containing `p` is
exactly `[p]`. -/
theorem chain_HSPs_cluster_spec (l : List BlastLine) (xdist ydist : ℤ) :
    (∀ c ∈ chainClusters l xdist ydist, ∀ x ∈ c, ∀ y ∈ c,
      x.2.orientation = y.2.orientation) ∧
    ((chainClusters l xdist ydist).flatten.Nodup ∧
      ∀ x : ChainItem, x ∈ (chainClusters l xdist ydist).flatten ↔ x ∈ l.enum) ∧
    (∀ p q : ChainItem, p ∈ l.enum → q ∈ l.enum →
      pairKey p.2 = pairKey q.2 → hspClose xdist ydist p q →
      sameCluster (chainClusters l xdist ydist) p q) ∧
    (∀ p : ChainItem, p ∈ l.enum →
      (∀ q : ChainItem, q ∈ l.enum → q ≠ p →
        ¬ (pairKey q.2 = pairKey p.2 ∧ hspClose xdist ydist p q)) →
      [p] ∈ chainClusters l xdist ydist ∧
      ∀ c ∈ chainClusters l xdist ydist, p ∈ c → c = [p]) := by
  refine ⟨?_, ⟨?_, ?_⟩, ?_, ?_⟩
  · exact runGroups_orientInv xdist ydist _ []
      (by intro c hc; cases hc)
  · exact runGroups_nodup xdist ydist _ [] (by simp)
  · intro x
    unfold chainClusters
    rw [runGroups_flatten_mem_iff]
    constructor
    · rintro (h1 | ⟨grp, hgrp, hx⟩)
      · simp at h1
      · have hx2 : x ∈ (groupPairs (l.enum.mergeSort keyLeB)).flatten :=
          List.mem_flatten.mpr ⟨grp, hgrp, hx⟩
        rw [groupPairs_flatten] at hx2
        exact List.mem_mergeSort.mp hx2
    · intro hx
      have hx2 : x ∈ (groupPairs (l.enum.mergeSort keyLeB)).flatten := by
        rw [groupPairs_flatten]
        exact List.mem_mergeSort.mpr hx
      obtain ⟨grp, hgrp, hxg⟩ := List.mem_flatten.mp hx2
      exact Or.inr ⟨grp, hgrp, hxg⟩
  · intro p q hp hq hkey hclose
    obtain ⟨grp, hgrp, hpg, hqg⟩ := groupPairs_same (l.enum.mergeSort keyLeB)
      (sortedKey_mergeSort _) p q (List.mem_mergeSort.mpr hp)
      (List.mem_mergeSort.mpr hq) hkey
    exact runGroups_joins xdist ydist _ [] p q grp hgrp hpg hqg hclose
  · intro p hp hiso
    have hJ : ∀ grp ∈ groupPairs (l.enum.mergeSort keyLeB),
        ∀ x ∈ grp, ∀ y ∈ grp, hspClose xdist ydist x y →
        (x = p → y = p) ∧ (y = p → x = p) := by
      intro grp hgrp x hx y hy hcl
      have hkey := groupPairs_key (l.enum.mergeSort keyLeB) grp hgrp x hx y hy
      have hxenum : x ∈ l.enum := by
        have hxf : x ∈ (groupPairs (l.enum.mergeSort keyLeB)).flatten :=
          List.mem_flatten.mpr ⟨grp, hgrp, hx⟩
        rw [groupPairs_flatten] at hxf
        exact List.mem_mergeSort.mp hxf
      have hyenum : y ∈ l.enum := by
        have hyf : y ∈ (groupPairs (l.enum.mergeSort keyLeB)).flatten :=
          List.mem_flatten.mpr ⟨grp, hgrp, hy⟩
        rw [groupPairs_flatten] at hyf
        exact List.mem_mergeSort.mp hyf
      constructor
      · intro hxp
        by_contra hyp
        exact hiso y hyenum hyp ⟨hxp ▸ hkey.symm, hxp ▸ hcl⟩
      · intro hyp
        by_contra hxp
        exact hiso x hxenum hxp
          ⟨hyp ▸ hkey, hspClose_symm _ _ _ _ (hyp ▸ hcl)⟩
    have hsing : ∀ c ∈ chainClusters l xdist ydist, p ∈ c → c = [p] := by
      intro c hc hpc
      exact runGroups_isolated xdist ydist p
        (groupPairs (l.enum.mergeSort keyLeB)) [] (by simp)
        (by intro c0 hc0; cases hc0) hJ c hc hpc
    have hpflat : p ∈ (chainClusters l xdist ydist).flatten := by
      unfold chainClusters
      rw [runGroups_flatten_mem_iff]
      refine Or.inr ?_
      have hx2 : p ∈ (groupPairs (l.enum.mergeSort keyLeB)).flatten := by
        rw [groupPairs_flatten]
        exact List.mem_mergeSort.mpr hp
      obtain ⟨grp, hgrp, hxg⟩ := List.mem_flatten.mp hx2
      exact ⟨grp, hgrp, hxg⟩
    obtain ⟨c, hcmem, hpc⟩ := List.mem_flatten.mp hpflat
    exact ⟨(hsing c hcmem hpc) ▸ hcmem, hsing⟩

theorem chain_HSPs_cluster_spec_witness :
    sameCluster (chainClusters [blE, blF] 100 100) (0, blE) (1, blF) ∧
    [((0 : ℕ), blE)] ∈ chainClusters [blE, blF] 5 5 :=
  ⟨(chain_HSPs_cluster_spec [blE, blF] 100 100).2.2.1 (0, blE) (1, blF)
    (by decide) (by decide) (by decide)
    ⟨rfl, by decide, by decide⟩,
   ((chain_HSPs_cluster_spec [blE, blF] 5 5).2.2.2 (0, blE) (by decide)
    (by decide)).1⟩
